import Mathlib

/-!
Verification of the Smart-Parking AI pipeline core.

Shallow embedding of `ai-pipeline/src/detector.py`, `camera.py`,
`publisher.py` and `optimization.py`.  Python floats are modelled as
rationals, Python ints as integers or naturals, Python dictionaries as
insertion-ordered association lists (which is exactly the iteration
order CPython guarantees).
-/

namespace SmartParking

/-- Axis-aligned box `(x1, y1, x2, y2)` as used throughout `detector.py`. -/
structure Box where
  x1 : ℤ
  y1 : ℤ
  x2 : ℤ
  y2 : ℤ
deriving DecidableEq, Repr

/-- Translation of `SlotOccupancyDetector._calculate_iou` (identical to
`SimpleTracker._calculate_iou`): intersection over union of two
axis-aligned boxes, `0` when the union area is not positive. -/
def calculate_iou (box1 box2 : Box) : ℚ :=
  let x1 := max box1.x1 box2.x1
  let y1 := max box1.y1 box2.y1
  let x2 := min box1.x2 box2.x2
  let y2 := min box1.y2 box2.y2
  let intersection := max 0 (x2 - x1) * max 0 (y2 - y1)
  let area1 := (box1.x2 - box1.x1) * (box1.y2 - box1.y1)
  let area2 := (box2.x2 - box2.x1) * (box2.y2 - box2.y1)
  let union := area1 + area2 - intersection
  if 0 < union then (intersection : ℚ) / (union : ℚ) else 0

/-- Intersection area term of `calculate_iou`, exposed for stating when
two boxes "do not overlap". -/
def inter_area (box1 box2 : Box) : ℤ :=
  max 0 (min box1.x2 box2.x2 - max box1.x1 box2.x1) *
    max 0 (min box1.y2 box2.y2 - max box1.y1 box2.y1)

/-- Union area term of `calculate_iou`. -/
def union_area (box1 box2 : Box) : ℤ :=
  (box1.x2 - box1.x1) * (box1.y2 - box1.y1) +
    (box2.x2 - box2.x1) * (box2.y2 - box2.y1) - inter_area box1 box2

theorem calculate_iou_eq (a b : Box) :
    calculate_iou a b =
      if 0 < union_area a b then ((inter_area a b : ℤ) : ℚ) / ((union_area a b : ℤ) : ℚ)
      else 0 := rfl

theorem iou_comm (a b : Box) : calculate_iou a b = calculate_iou b a := by
  simp only [calculate_iou]
  rw [max_comm a.x1 b.x1, max_comm a.y1 b.y1, min_comm a.x2 b.x2, min_comm a.y2 b.y2,
    add_comm ((a.x2 - a.x1) * (a.y2 - a.y1)) ((b.x2 - b.x1) * (b.y2 - b.y1))]

theorem iou_self (a : Box) (hx : a.x1 < a.x2) (hy : a.y1 < a.y2) :
    calculate_iou a a = 1 := by
  have harea : (0 : ℤ) < (a.x2 - a.x1) * (a.y2 - a.y1) :=
    mul_pos (by omega) (by omega)
  simp only [calculate_iou, max_self, min_self]
  rw [max_eq_right (by omega : (0 : ℤ) ≤ a.x2 - a.x1),
    max_eq_right (by omega : (0 : ℤ) ≤ a.y2 - a.y1)]
  have hu : (a.x2 - a.x1) * (a.y2 - a.y1) + (a.x2 - a.x1) * (a.y2 - a.y1) -
      (a.x2 - a.x1) * (a.y2 - a.y1) = (a.x2 - a.x1) * (a.y2 - a.y1) := by ring
  rw [hu, if_pos harea, div_self]
  exact_mod_cast harea.ne'

theorem iou_inter_zero (a b : Box) (h : inter_area a b = 0) :
    calculate_iou a b = 0 := by
  rw [calculate_iou_eq]
  split
  · rw [h, Int.cast_zero, zero_div]
  · rfl

theorem iou_union_zero (a b : Box) (h : union_area a b = 0) :
    calculate_iou a b = 0 := by
  rw [calculate_iou_eq, if_neg]
  omega

/-- C4 (amended): the IoU computation shared by `SlotOccupancyDetector`
and `SimpleTracker` is symmetric; self-IoU is `1` for every box of
positive area; the IoU is `0` whenever the boxes do not overlap
(intersection area zero) and whenever the union area is zero.  (The
original claim's "IoU(a, a) = 1 for every box a" is false for
degenerate, zero-area boxes; see `C4_self_iou_counterexample`.) -/
theorem C4_iou_algebra (a b : Box) :
    calculate_iou a b = calculate_iou b a ∧
    (a.x1 < a.x2 → a.y1 < a.y2 → calculate_iou a a = 1) ∧
    (inter_area a b = 0 → calculate_iou a b = 0) ∧
    (union_area a b = 0 → calculate_iou a b = 0) :=
  ⟨iou_comm a b, iou_self a, iou_inter_zero a b, iou_union_zero a b⟩

/-- C4 counterexample: the degenerate box `(0, 0, 0, 0)` has self-IoU
`0`, not `1` as the claim states (its union area is zero, so
`_calculate_iou` returns `0`). -/
theorem C4_self_iou_counterexample :
    ¬ calculate_iou ⟨0, 0, 0, 0⟩ ⟨0, 0, 0, 0⟩ = 1 := by decide

/-- Witness for `C4_iou_algebra` at a concrete positive-area box. -/
theorem C4_witness : calculate_iou ⟨0, 0, 2, 3⟩ ⟨0, 0, 2, 3⟩ = 1 :=
  (C4_iou_algebra ⟨0, 0, 2, 3⟩ ⟨0, 0, 2, 3⟩).2.1 (by decide) (by decide)

/-- Translation of the `Detection` dataclass of `detector.py` (only the
fields the occupancy detector and tracker read).  `confidence` is a
Python float, modelled as a rational. -/
structure Detection where
  class_name : String
  confidence : ℚ
  bbox : Box
  track_id : Option ℕ := none
deriving DecidableEq, Repr

/-- Slot bounding box `{"x": …, "y": …, "width": …, "height": …}` as
consumed by `SlotOccupancyDetector.update`. -/
structure SlotBBox where
  x : ℤ
  y : ℤ
  width : ℤ
  height : ℤ
deriving DecidableEq, Repr

/-- Slot definition dictionary passed to `SlotOccupancyDetector.update`.
A `"bbox"` / `"detectionBounds"` key that is missing or whose value is
falsy is modelled as `none`. -/
structure Slot where
  id : String
  bbox : Option SlotBBox
  detectionBounds : Option SlotBBox
deriving DecidableEq, Repr

/-- Python `slot.get("bbox") or slot.get("detectionBounds")`. -/
def Slot.effBBox (s : Slot) : Option SlotBBox :=
  s.bbox.orElse fun _ => s.detectionBounds

/-- Conversion of a slot bbox to corner form, as done inline in
`SlotOccupancyDetector.update` (`sx1 = x`, `sy1 = y`,
`sx2 = sx1 + width`, `sy2 = sy1 + height`). -/
def slotRect (b : SlotBBox) : Box :=
  ⟨b.x, b.y, b.x + b.width, b.y + b.height⟩

/-- Per-slot occupancy memory held in
`SlotOccupancyDetector.slot_states`. -/
structure SlotState where
  occupied : Bool
  counter : ℕ
  confidence : ℚ
deriving DecidableEq, Repr

/-- Fresh state inserted by `update` on first reference of a slot id. -/
def initSlotState : SlotState := ⟨false, 0, 0⟩

/-- Slot status update dictionary emitted by
`SlotOccupancyDetector.update`.  The vacate update carries no
`"vehicleType"` key, modelled as `none`. -/
structure SlotUpdate where
  slotId : String
  isOccupied : Bool
  confidence : ℚ
  vehicleType : Option String
deriving DecidableEq, Repr

/-- Translation of the detection-scanning loop at the top of the slot
loop in `SlotOccupancyDetector.update`: computes `is_occupied` (some
detection has IoU ≥ threshold with the slot rectangle),
`best_confidence`, and `matching_vehicle`. -/
def bestMatch (thr : ℚ) (rect : Box) (detections : List Detection) :
    Bool × ℚ × Option Detection :=
  detections.foldl
    (fun acc det =>
      if thr ≤ calculate_iou rect det.bbox then
        if acc.2.1 < det.confidence then (true, det.confidence, some det)
        else (true, acc.2.1, acc.2.2)
      else acc)
    (false, 0, none)

/-- Translation of the per-slot hysteresis block of
`SlotOccupancyDetector.update` ("Update state with hysteresis"): given
the stored state and this frame's signal, returns the new state and the
optionally emitted status update. -/
def stepSlot (cf hf : ℕ) (slotId : String) (st : SlotState) (sig : Bool)
    (bc : ℚ) (mv : Option Detection) : SlotState × Option SlotUpdate :=
  if sig then
    if st.occupied then (⟨true, 0, bc⟩, none)
    else if cf ≤ st.counter + 1 then
      (⟨true, 0, bc⟩, some ⟨slotId, true, bc, mv.map (fun d => d.class_name)⟩)
    else (⟨false, st.counter + 1, bc⟩, none)
  else
    if st.occupied then
      if hf ≤ st.counter + 1 then
        (⟨false, 0, st.confidence⟩, some ⟨slotId, false, 0, none⟩)
      else (⟨true, st.counter + 1, st.confidence⟩, none)
    else (⟨false, 0, st.confidence⟩, none)

/-- Lookup in the `slot_states` dictionary (association list). -/
def lookupState (states : List (String × SlotState)) (sid : String) :
    Option SlotState :=
  (states.find? fun p => p.1 = sid).map Prod.snd

/-- Python `if slot_id not in self.slot_states: … = {default}`. -/
def getOrInitState (states : List (String × SlotState)) (sid : String) :
    List (String × SlotState) :=
  if (lookupState states sid).isSome then states
  else states ++ [(sid, initSlotState)]

/-- In-place mutation of the dictionary entry for `sid` (the key is
present whenever `update` writes it). -/
def setState (states : List (String × SlotState)) (sid : String)
    (st : SlotState) : List (String × SlotState) :=
  states.map fun p => if p.1 = sid then (sid, st) else p

/-- State of a `SlotOccupancyDetector` instance. -/
structure SlotOccupancyDetector where
  iou_threshold : ℚ
  confirmation_frames : ℕ
  hysteresis_frames : ℕ
  slot_states : List (String × SlotState)
deriving DecidableEq, Repr

/-- Detector as built by `SlotOccupancyDetector.__init__`. -/
def mkDetector (thr : ℚ) (cf hf : ℕ) : SlotOccupancyDetector :=
  ⟨thr, cf, hf, []⟩

/-- Body of the `for slot in slots` loop of
`SlotOccupancyDetector.update`, threading the `slot_states` dictionary
and the accumulated `updates` list. -/
def processSlot (thr : ℚ) (cf hf : ℕ) (detections : List Detection)
    (acc : List (String × SlotState) × List SlotUpdate) (slot : Slot) :
    List (String × SlotState) × List SlotUpdate :=
  match slot.effBBox with
  | none => acc
  | some b =>
    let r := bestMatch thr (slotRect b) detections
    let states := getOrInitState acc.1 slot.id
    let st := (lookupState states slot.id).getD initSlotState
    let res := stepSlot cf hf slot.id st r.1 r.2.1 r.2.2
    (setState states slot.id res.1, acc.2 ++ res.2.toList)

/-- Translation of `SlotOccupancyDetector.update`. -/
def SlotOccupancyDetector.update (d : SlotOccupancyDetector)
    (detections : List Detection) (slots : List Slot) :
    SlotOccupancyDetector × List SlotUpdate :=
  let r := slots.foldl
    (processSlot d.iou_threshold d.confirmation_frames d.hysteresis_frames detections)
    (d.slot_states, [])
  ({ d with slot_states := r.1 }, r.2)

theorem processSlot_no_bbox (thr : ℚ) (cf hf : ℕ) (detections : List Detection)
    (acc : List (String × SlotState) × List SlotUpdate) (sid : String) :
    processSlot thr cf hf detections acc ⟨sid, none, none⟩ = acc := rfl

/-- C10: a slot entry carrying neither a `"bbox"` nor a
`"detectionBounds"` value (both missing or falsy, modelled `none`) is
skipped entirely by `SlotOccupancyDetector.update`: the call behaves
exactly as if the entry were not in the slots list at all, so no slot
state is created or modified for its id and no update is emitted for
it, regardless of the detections passed in. -/
theorem C10_bboxless_slot_skipped (d : SlotOccupancyDetector)
    (detections : List Detection) (sid : String) (xs ys : List Slot) :
    d.update detections (xs ++ ⟨sid, none, none⟩ :: ys) =
      d.update detections (xs ++ ys) := by
  unfold SlotOccupancyDetector.update
  rw [List.foldl_append, List.foldl_cons, List.foldl_append, processSlot_no_bbox]

/-- Invariant of C9: the debounce counter is strictly below the
threshold that applies to the current state. -/
def stateInv (cf hf : ℕ) (st : SlotState) : Prop :=
  (st.occupied = false → st.counter < cf) ∧ (st.occupied = true → st.counter < hf)

theorem initSlotState_inv (cf hf : ℕ) (hcf : 1 ≤ cf) :
    stateInv cf hf initSlotState :=
  ⟨fun _ => hcf, fun h => by simp [initSlotState] at h⟩

theorem stepSlot_inv (cf hf : ℕ) (sid : String) (st : SlotState) (sig : Bool)
    (bc : ℚ) (mv : Option Detection) (hcf : 1 ≤ cf) (hhf : 1 ≤ hf)
    (h : stateInv cf hf st) :
    stateInv cf hf (stepSlot cf hf sid st sig bc mv).1 := by
  obtain ⟨h1, h2⟩ := h
  cases hs : sig <;> cases ho : st.occupied <;>
    simp only [stepSlot, hs, ho, if_true, if_false, Bool.false_eq_true,
      Bool.true_eq_false] <;>
    simp only [stateInv] <;> (try split) <;> simp_all <;> omega

theorem mem_setState {states : List (String × SlotState)} {sid : String}
    {st : SlotState} {p : String × SlotState} (hp : p ∈ setState states sid st) :
    p = (sid, st) ∨ p ∈ states := by
  unfold setState at hp
  obtain ⟨q, hq, hpq⟩ := List.mem_map.mp hp
  by_cases h : q.1 = sid
  · simp [h] at hpq
    exact Or.inl hpq.symm
  · simp [h] at hpq
    exact Or.inr (hpq ▸ hq)

theorem mem_getOrInitState {states : List (String × SlotState)} {sid : String}
    {p : String × SlotState} (hp : p ∈ getOrInitState states sid) :
    p ∈ states ∨ p = (sid, initSlotState) := by
  unfold getOrInitState at hp
  split at hp
  · exact Or.inl hp
  · rcases List.mem_append.mp hp with h | h
    · exact Or.inl h
    · simp at h
      exact Or.inr (by simp [h])

theorem lookupState_mem {states : List (String × SlotState)} {sid : String}
    {st : SlotState} (h : lookupState states sid = some st) :
    ∃ s, (s, st) ∈ states := by
  unfold lookupState at h
  obtain ⟨p, hp, hps⟩ := Option.map_eq_some'.mp h
  refine ⟨p.1, ?_⟩
  have hm := List.mem_of_find?_eq_some hp
  rwa [← hps, Prod.mk.eta]

theorem processSlot_inv {thr : ℚ} {cf hf : ℕ} {detections : List Detection}
    {acc : List (String × SlotState) × List SlotUpdate} {s : Slot}
    (hcf : 1 ≤ cf) (hhf : 1 ≤ hf)
    (h : ∀ p ∈ acc.1, stateInv cf hf p.2) :
    ∀ p ∈ (processSlot thr cf hf detections acc s).1, stateInv cf hf p.2 := by
  unfold processSlot
  cases hb : s.effBBox with
  | none => exact h
  | some b =>
    intro p hp
    simp only at hp
    rcases mem_setState hp with hpe | hpm
    · subst hpe
      refine stepSlot_inv _ _ _ _ _ _ _ hcf hhf ?_
      cases hl : lookupState (getOrInitState acc.1 s.id) s.id with
      | none => simpa [hl] using initSlotState_inv cf hf hcf
      | some st =>
        obtain ⟨sid', hmem⟩ := lookupState_mem hl
        rcases mem_getOrInitState hmem with hm | hm
        · simpa [hl] using h _ hm
        · simp only [Prod.mk.injEq] at hm
          simpa [hl, hm.2] using initSlotState_inv cf hf hcf
    · rcases mem_getOrInitState hpm with hm | hm
      · exact h _ hm
      · subst hm
        exact initSlotState_inv cf hf hcf

theorem foldl_processSlot_inv {thr : ℚ} {cf hf : ℕ} {detections : List Detection}
    (slots : List Slot) (acc : List (String × SlotState) × List SlotUpdate)
    (hcf : 1 ≤ cf) (hhf : 1 ≤ hf)
    (h : ∀ p ∈ acc.1, stateInv cf hf p.2) :
    ∀ p ∈ (slots.foldl (processSlot thr cf hf detections) acc).1,
      stateInv cf hf p.2 := by
  induction slots generalizing acc with
  | nil => exact h
  | cons s rest ih => exact ih _ (processSlot_inv hcf hhf h)

/-- C9: assuming `confirmation_frames ≥ 1` and `hysteresis_frames ≥ 1`,
`SlotOccupancyDetector.update` preserves the invariant that every
stored slot state has `counter < confirmation_frames` while unoccupied
and `counter < hysteresis_frames` while occupied (the counter is a
natural number, hence never negative): reaching a threshold immediately
flips the state and resets the counter to zero. -/
theorem C9_slot_state_invariant (d : SlotOccupancyDetector)
    (detections : List Detection) (slots : List Slot)
    (hcf : 1 ≤ d.confirmation_frames) (hhf : 1 ≤ d.hysteresis_frames)
    (h : ∀ p ∈ d.slot_states,
      stateInv d.confirmation_frames d.hysteresis_frames p.2) :
    ∀ p ∈ (d.update detections slots).1.slot_states,
      stateInv d.confirmation_frames d.hysteresis_frames p.2 := by
  unfold SlotOccupancyDetector.update
  exact foldl_processSlot_inv slots _ hcf hhf h

/-- Witness for `C9_slot_state_invariant`: one update call on a fresh
detector with a single occupied slot leaves the slot counter at `1`,
strictly below `confirmation_frames = 2`. -/
theorem C9_witness :
    (((mkDetector (3/10) 2 2).update
        [⟨"car", 9/10, ⟨0, 0, 10, 10⟩, none⟩]
        [⟨"A", some ⟨0, 0, 10, 10⟩, none⟩]).1.slot_states).Forall
      (fun p => stateInv 2 2 p.2) :=
  List.forall_iff_forall_mem.mpr
    (C9_slot_state_invariant (mkDetector (3/10) 2 2) _ _ (by decide) (by decide)
      (by intro p hp; simp [mkDetector] at hp))

/-- Projection of the per-slot hysteresis logic of
`SlotOccupancyDetector.update` onto its `(occupied, counter)`
components: the two-state debounce machine. -/
def mstep (cf hf : ℕ) (s : Bool × ℕ) (sig : Bool) : Bool × ℕ :=
  if sig then
    if s.1 then (true, 0)
    else if cf ≤ s.2 + 1 then (true, 0) else (false, s.2 + 1)
  else
    if s.1 then
      if hf ≤ s.2 + 1 then (false, 0) else (true, s.2 + 1)
    else (false, 0)

/-- Event emitted by the debounce machine at one step: `some true` for an
occupy transition, `some false` for a vacate transition. -/
def memit (cf hf : ℕ) (s : Bool × ℕ) (sig : Bool) : Option Bool :=
  if sig then
    if s.1 = false ∧ cf ≤ s.2 + 1 then some true else none
  else
    if s.1 = true ∧ hf ≤ s.2 + 1 then some false else none

theorem stepSlot_proj (cf hf : ℕ) (sid : String) (st : SlotState) (sig : Bool)
    (bc : ℚ) (mv : Option Detection) :
    ((stepSlot cf hf sid st sig bc mv).1.occupied,
      (stepSlot cf hf sid st sig bc mv).1.counter) =
      mstep cf hf (st.occupied, st.counter) sig := by
  unfold stepSlot mstep
  split_ifs <;> simp_all

theorem stepSlot_emit (cf hf : ℕ) (sid : String) (st : SlotState) (sig : Bool)
    (bc : ℚ) (mv : Option Detection) :
    (stepSlot cf hf sid st sig bc mv).2 =
      match memit cf hf (st.occupied, st.counter) sig with
      | some true => some ⟨sid, true, bc, mv.map (fun d => d.class_name)⟩
      | some false => some ⟨sid, false, 0, none⟩
      | none => none := by
  unfold stepSlot memit
  split_ifs <;> simp_all

/-- Machine state before step `i` when the signal sequence `σ` is
processed from the initial state `(Unoccupied, 0)`; signals past the end
of `σ` default to `false`. -/
def stAt (cf hf : ℕ) (σ : List Bool) : ℕ → Bool × ℕ
  | 0 => (false, 0)
  | i + 1 => mstep cf hf (stAt cf hf σ i) (σ.getD i false)

/-- Event emitted at step `i` of the machine run. -/
def emitAt (cf hf : ℕ) (σ : List Bool) (i : ℕ) : Option Bool :=
  memit cf hf (stAt cf hf σ i) (σ.getD i false)

theorem mstep_counter_le {cf hf : ℕ} {s : Bool × ℕ} {sig : Bool} :
    (mstep cf hf s sig).2 ≤ s.2 + 1 := by
  unfold mstep
  split_ifs <;> simp

theorem mstep_inv {cf hf : ℕ} {s : Bool × ℕ} {sig : Bool}
    (hcf : 1 ≤ cf) (hhf : 1 ≤ hf) :
    ((mstep cf hf s sig).1 = false → (mstep cf hf s sig).2 < cf) ∧
      ((mstep cf hf s sig).1 = true → (mstep cf hf s sig).2 < hf) := by
  unfold mstep
  split_ifs <;> simp_all <;> omega

theorem stAt_counter_le (cf hf : ℕ) (σ : List Bool) :
    ∀ i, (stAt cf hf σ i).2 ≤ i := by
  intro i
  induction i with
  | zero => exact Nat.le_refl 0
  | succ i ih =>
    have h := @mstep_counter_le cf hf (stAt cf hf σ i) (σ.getD i false)
    calc (stAt cf hf σ (i + 1)).2 ≤ (stAt cf hf σ i).2 + 1 := h
      _ ≤ i + 1 := by omega

theorem stAt_inv (cf hf : ℕ) (σ : List Bool) (hcf : 1 ≤ cf) (hhf : 1 ≤ hf) :
    ∀ i, ((stAt cf hf σ i).1 = false → (stAt cf hf σ i).2 < cf) ∧
      ((stAt cf hf σ i).1 = true → (stAt cf hf σ i).2 < hf) := by
  intro i
  induction i with
  | zero => exact ⟨fun _ => hcf, fun h => by simp [stAt] at h⟩
  | succ i _ => exact mstep_inv hcf hhf

theorem mstep_false_succ {cf hf : ℕ} {s : Bool × ℕ} {sig : Bool} {c : ℕ}
    (h : mstep cf hf s sig = (false, c + 1)) :
    s.1 = false ∧ s.2 = c ∧ sig = true ∧ c + 1 < cf := by
  unfold mstep at h
  split_ifs at h <;> simp_all

theorem mstep_true_succ {cf hf : ℕ} {s : Bool × ℕ} {sig : Bool} {c : ℕ}
    (h : mstep cf hf s sig = (true, c + 1)) :
    s.1 = true ∧ s.2 = c ∧ sig = false ∧ c + 1 < hf := by
  unfold mstep at h
  split_ifs at h <;> simp_all

theorem memit_occupy_iff {cf hf : ℕ} {s : Bool × ℕ} {sig : Bool} :
    memit cf hf s sig = some true ↔ s.1 = false ∧ sig = true ∧ cf ≤ s.2 + 1 := by
  unfold memit
  split_ifs <;> simp_all

theorem memit_vacate_iff {cf hf : ℕ} {s : Bool × ℕ} {sig : Bool} :
    memit cf hf s sig = some false ↔ s.1 = true ∧ sig = false ∧ hf ≤ s.2 + 1 := by
  unfold memit
  split_ifs <;> simp_all

theorem stAt_false_chain (cf hf : ℕ) (σ : List Bool) (i c : ℕ)
    (h : stAt cf hf σ i = (false, c)) :
    ∀ k, k ≤ c → stAt cf hf σ (i - k) = (false, c - k) ∧
      (1 ≤ k → σ.getD (i - k) false = true) := by
  intro k
  induction k with
  | zero => exact fun _ => ⟨by simpa using h, by omega⟩
  | succ k ih =>
    intro hk
    have hprev := ih (by omega)
    have hik : 1 ≤ i - k := by
      have hle := stAt_counter_le cf hf σ (i - k)
      rw [hprev.1] at hle
      omega
    have hrw : i - k = (i - (k + 1)) + 1 := by omega
    have hc : c - k = (c - (k + 1)) + 1 := by omega
    have hstep : mstep cf hf (stAt cf hf σ (i - (k + 1)))
        (σ.getD (i - (k + 1)) false) = (false, (c - (k + 1)) + 1) := by
      have := hprev.1
      rw [hrw, hc] at this
      exact this
    obtain ⟨h1, h2, h3, _⟩ := mstep_false_succ hstep
    refine ⟨?_, fun _ => h3⟩
    rw [Prod.ext_iff]
    exact ⟨h1, h2⟩

theorem stAt_true_chain (cf hf : ℕ) (σ : List Bool) (i c : ℕ)
    (h : stAt cf hf σ i = (true, c)) :
    ∀ k, k ≤ c → stAt cf hf σ (i - k) = (true, c - k) ∧
      (1 ≤ k → σ.getD (i - k) false = false) := by
  intro k
  induction k with
  | zero => exact fun _ => ⟨by simpa using h, by omega⟩
  | succ k ih =>
    intro hk
    have hprev := ih (by omega)
    have hik : 1 ≤ i - k := by
      have hle := stAt_counter_le cf hf σ (i - k)
      rw [hprev.1] at hle
      omega
    have hrw : i - k = (i - (k + 1)) + 1 := by omega
    have hc : c - k = (c - (k + 1)) + 1 := by omega
    have hstep : mstep cf hf (stAt cf hf σ (i - (k + 1)))
        (σ.getD (i - (k + 1)) false) = (true, (c - (k + 1)) + 1) := by
      have := hprev.1
      rw [hrw, hc] at this
      exact this
    obtain ⟨h1, h2, h3, _⟩ := mstep_true_succ hstep
    refine ⟨?_, fun _ => h3⟩
    rw [Prod.ext_iff]
    exact ⟨h1, h2⟩

theorem stAt_counter_window_false (cf hf : ℕ) (σ : List Bool) (a : ℕ) :
    ∀ m, (∀ j, a ≤ j → j ≤ a + m → (stAt cf hf σ j).1 = false) →
      (∀ j, a ≤ j → j < a + m → σ.getD j false = true) →
      stAt cf hf σ (a + m) = (false, (stAt cf hf σ a).2 + m) := by
  intro m
  induction m with
  | zero =>
    intro hU _
    have := hU a (le_refl a) (by omega)
    rw [Prod.ext_iff]
    exact ⟨this, rfl⟩
  | succ m ih =>
    intro hU hT
    have hm := ih (fun j h1 h2 => hU j h1 (by omega))
      (fun j h1 h2 => hT j h1 (by omega))
    have hTm : σ.getD (a + m) false = true := hT _ (by omega) (by omega)
    have hUnext : (stAt cf hf σ (a + m + 1)).1 = false := hU _ (by omega) (by omega)
    have hstep : stAt cf hf σ (a + m + 1) =
        mstep cf hf (stAt cf hf σ (a + m)) (σ.getD (a + m) false) := rfl
    have hia : a + (m + 1) = a + m + 1 := by omega
    rw [hia]
    rw [hstep, hm, hTm] at hUnext ⊢
    unfold mstep at hUnext ⊢
    split_ifs at hUnext ⊢ <;> simp_all <;> omega

theorem stAt_counter_window_true (cf hf : ℕ) (σ : List Bool) (a : ℕ) :
    ∀ m, (∀ j, a ≤ j → j ≤ a + m → (stAt cf hf σ j).1 = true) →
      (∀ j, a ≤ j → j < a + m → σ.getD j false = false) →
      stAt cf hf σ (a + m) = (true, (stAt cf hf σ a).2 + m) := by
  intro m
  induction m with
  | zero =>
    intro hU _
    have := hU a (le_refl a) (by omega)
    rw [Prod.ext_iff]
    exact ⟨this, rfl⟩
  | succ m ih =>
    intro hU hT
    have hm := ih (fun j h1 h2 => hU j h1 (by omega))
      (fun j h1 h2 => hT j h1 (by omega))
    have hTm : σ.getD (a + m) false = false := hT _ (by omega) (by omega)
    have hUnext : (stAt cf hf σ (a + m + 1)).1 = true := hU _ (by omega) (by omega)
    have hstep : stAt cf hf σ (a + m + 1) =
        mstep cf hf (stAt cf hf σ (a + m)) (σ.getD (a + m) false) := rfl
    have hia : a + (m + 1) = a + m + 1 := by omega
    rw [hia]
    rw [hstep, hm, hTm] at hUnext ⊢
    unfold mstep at hUnext ⊢
    split_ifs at hUnext ⊢ <;> simp_all <;> omega

/-- Occupy transition characterization: the machine emits an occupy
event at step `i` exactly when the occupied signal has held, in the
unoccupied state, for the last `confirmation_frames` consecutive
steps. -/
theorem emitAt_occupy_iff (cf hf : ℕ) (σ : List Bool)
    (hcf : 1 ≤ cf) (hhf : 1 ≤ hf) (i : ℕ) :
    emitAt cf hf σ i = some true ↔
      cf ≤ i + 1 ∧ ∀ j, i + 1 - cf ≤ j → j ≤ i →
        σ.getD j false = true ∧ (stAt cf hf σ j).1 = false := by
  constructor
  · intro h
    rw [emitAt, memit_occupy_iff] at h
    obtain ⟨hU, hsig, hcnt⟩ := h
    have hinv := (stAt_inv cf hf σ hcf hhf i).1 hU
    have hle := stAt_counter_le cf hf σ i
    have hi : cf ≤ i + 1 := by omega
    refine ⟨hi, ?_⟩
    have hpair : stAt cf hf σ i = (false, cf - 1) := by
      rw [Prod.ext_iff]
      exact ⟨hU, by omega⟩
    have hchain := stAt_false_chain cf hf σ i (cf - 1) hpair
    intro j hj1 hj2
    have hk : i - (i - j) = j := by omega
    have hkle : i - j ≤ cf - 1 := by omega
    have hc := hchain (i - j) hkle
    constructor
    · rcases Nat.eq_or_lt_of_le hj2 with he | hlt
      · rw [he]
        exact hsig
      · have : 1 ≤ i - j := by omega
        have := hc.2 this
        rwa [hk] at this
    · have := hc.1
      rw [hk] at this
      rw [this]
  · rintro ⟨hi, hw⟩
    have hbase : (stAt cf hf σ (i + 1 - cf)).1 = false :=
      (hw _ (le_refl _) (by omega)).2
    have hclimb := stAt_counter_window_false cf hf σ (i + 1 - cf) (cf - 1)
      (fun j h1 h2 => (hw j h1 (by omega)).2)
      (fun j h1 h2 => (hw j h1 (by omega)).1)
    have hidx : i + 1 - cf + (cf - 1) = i := by omega
    rw [hidx] at hclimb
    rw [emitAt, memit_occupy_iff]
    refine ⟨(hw i (by omega) (le_refl i)).2, (hw i (by omega) (le_refl i)).1, ?_⟩
    rw [hclimb]
    omega

/-- Vacate transition characterization: the machine emits a vacate event
at step `i` exactly when the non-occupied signal has held, in the
occupied state, for the last `hysteresis_frames` consecutive steps. -/
theorem emitAt_vacate_iff (cf hf : ℕ) (σ : List Bool)
    (hcf : 1 ≤ cf) (hhf : 1 ≤ hf) (i : ℕ) :
    emitAt cf hf σ i = some false ↔
      hf ≤ i + 1 ∧ ∀ j, i + 1 - hf ≤ j → j ≤ i →
        σ.getD j false = false ∧ (stAt cf hf σ j).1 = true := by
  constructor
  · intro h
    rw [emitAt, memit_vacate_iff] at h
    obtain ⟨hU, hsig, hcnt⟩ := h
    have hinv := (stAt_inv cf hf σ hcf hhf i).2 hU
    have hle := stAt_counter_le cf hf σ i
    have hi : hf ≤ i + 1 := by omega
    refine ⟨hi, ?_⟩
    have hpair : stAt cf hf σ i = (true, hf - 1) := by
      rw [Prod.ext_iff]
      exact ⟨hU, by omega⟩
    have hchain := stAt_true_chain cf hf σ i (hf - 1) hpair
    intro j hj1 hj2
    have hk : i - (i - j) = j := by omega
    have hkle : i - j ≤ hf - 1 := by omega
    have hc := hchain (i - j) hkle
    constructor
    · rcases Nat.eq_or_lt_of_le hj2 with he | hlt
      · rw [he]
        exact hsig
      · have : 1 ≤ i - j := by omega
        have := hc.2 this
        rwa [hk] at this
    · have := hc.1
      rw [hk] at this
      rw [this]
  · rintro ⟨hi, hw⟩
    have hclimb := stAt_counter_window_true cf hf σ (i + 1 - hf) (hf - 1)
      (fun j h1 h2 => (hw j h1 (by omega)).2)
      (fun j h1 h2 => (hw j h1 (by omega)).1)
    have hidx : i + 1 - hf + (hf - 1) = i := by omega
    rw [hidx] at hclimb
    rw [emitAt, memit_vacate_iff]
    refine ⟨(hw i (by omega) (le_refl i)).2, (hw i (by omega) (le_refl i)).1, ?_⟩
    rw [hclimb]
    omega

/-- Run of `SlotOccupancyDetector.update`, one entry per call: each call
carries its own detections list and its own (arbitrary, multi-slot)
slots list, returning the final detector and each call's emitted
updates. -/
def runDetector : SlotOccupancyDetector →
    List (List Detection × List Slot) →
    SlotOccupancyDetector × List (List SlotUpdate)
  | d, [] => (d, [])
  | d, c :: rest =>
    let r := d.update c.1 c.2
    let r2 := runDetector r.1 rest
    (r2.1, r.2 :: r2.2)

/-- Occupied signal of each call for a fixed slot rectangle: the max IoU
of the slot bbox against the call's detections reaches the threshold. -/
def signalsOf (thr : ℚ) (b : SlotBBox)
    (calls : List (List Detection × List Slot)) : List Bool :=
  calls.map fun c => (bestMatch thr (slotRect b) c.1).1

/-- Stored `(occupied, counter)` pair of a slot, `(false, 0)` when the
slot has never been referenced. -/
def slotProj (d : SlotOccupancyDetector) (sid : String) : Bool × ℕ :=
  match lookupState d.slot_states sid with
  | some st => (st.occupied, st.counter)
  | none => (false, 0)

theorem lookupState_cons (a : String × SlotState)
    (l : List (String × SlotState)) (sid : String) :
    lookupState (a :: l) sid =
      if a.1 = sid then some a.2 else lookupState l sid := by
  unfold lookupState
  by_cases h : a.1 = sid
  · rw [List.find?_cons_of_pos _ (by simpa using h), if_pos h]
    rfl
  · rw [List.find?_cons_of_neg _ (by simpa using h), if_neg h]

theorem setState_cons (a : String × SlotState) (l : List (String × SlotState))
    (k : String) (v : SlotState) :
    setState (a :: l) k v =
      (if a.1 = k then (k, v) else a) :: setState l k v := rfl

theorem lookupState_append_ne (l : List (String × SlotState)) (k sid : String)
    (v : SlotState) (hk : ¬ k = sid) :
    lookupState (l ++ [(k, v)]) sid = lookupState l sid := by
  induction l with
  | nil => simp [lookupState_cons, hk, lookupState]
  | cons a l ih =>
    by_cases h : a.1 = sid <;> simp [lookupState_cons, h, ih]

theorem lookupState_setState_ne (l : List (String × SlotState)) (k sid : String)
    (v : SlotState) (hk : ¬ k = sid) :
    lookupState (setState l k v) sid = lookupState l sid := by
  induction l with
  | nil => rfl
  | cons a l ih =>
    rw [setState_cons]
    by_cases h : a.1 = k
    · rw [if_pos h]
      have ha : ¬ a.1 = sid := by rw [h]; exact hk
      simp [lookupState_cons, ha, hk, ih]
    · rw [if_neg h]
      by_cases ha : a.1 = sid <;> simp [lookupState_cons, ha, ih]

theorem lookupState_setState_self (l : List (String × SlotState)) (sid : String)
    (v : SlotState) (h : (lookupState l sid).isSome) :
    lookupState (setState l sid v) sid = some v := by
  induction l with
  | nil => simp [lookupState] at h
  | cons a l ih =>
    rw [setState_cons]
    by_cases ha : a.1 = sid
    · simp [lookupState_cons, ha]
    · simp only [lookupState_cons, ha, if_false, if_neg ha] at h
      simp [lookupState_cons, ha, ih h]

theorem lookupState_append_self (l : List (String × SlotState)) (sid : String)
    (v : SlotState) (h : lookupState l sid = none) :
    lookupState (l ++ [(sid, v)]) sid = some v := by
  induction l with
  | nil => simp [lookupState_cons]
  | cons a l ih =>
    rw [lookupState_cons] at h
    by_cases ha : a.1 = sid
    · rw [if_pos ha] at h
      exact absurd h (by simp)
    · rw [if_neg ha] at h
      rw [List.cons_append, lookupState_cons, if_neg ha]
      exact ih h

theorem lookupState_getOrInit_ne (l : List (String × SlotState)) (k sid : String)
    (hk : ¬ k = sid) :
    lookupState (getOrInitState l k) sid = lookupState l sid := by
  unfold getOrInitState
  split
  · rfl
  · exact lookupState_append_ne l k sid initSlotState hk

theorem lookupState_getOrInit_self (l : List (String × SlotState))
    (sid : String) :
    lookupState (getOrInitState l sid) sid =
      some ((lookupState l sid).getD initSlotState) := by
  unfold getOrInitState
  cases h : lookupState l sid with
  | some st => simp [h]
  | none => simp [h, lookupState_append_self l sid initSlotState h]

theorem processSlot_lookup_ne {thr : ℚ} {cf hf : ℕ} {dets : List Detection}
    {acc : List (String × SlotState) × List SlotUpdate} {s : Slot}
    {sid : String} (h : ¬ s.id = sid) :
    lookupState (processSlot thr cf hf dets acc s).1 sid =
      lookupState acc.1 sid := by
  cases hb : s.effBBox with
  | none => simp [processSlot, hb]
  | some b =>
    simp only [processSlot, hb]
    rw [lookupState_setState_ne _ _ _ _ h, lookupState_getOrInit_ne _ _ _ h]

theorem processSlot_lookup_self {thr : ℚ} {cf hf : ℕ} {dets : List Detection}
    {acc : List (String × SlotState) × List SlotUpdate} {s : Slot}
    {sid : String} {b : SlotBBox} (hid : s.id = sid)
    (hb : s.effBBox = some b) :
    lookupState (processSlot thr cf hf dets acc s).1 sid =
      some ((stepSlot cf hf sid ((lookupState acc.1 sid).getD initSlotState)
        (bestMatch thr (slotRect b) dets).1
        (bestMatch thr (slotRect b) dets).2.1
        (bestMatch thr (slotRect b) dets).2.2).1) := by
  subst hid
  simp only [processSlot, hb]
  rw [lookupState_setState_self _ _ _
      (by rw [lookupState_getOrInit_self]; rfl),
    lookupState_getOrInit_self, Option.getD_some]

theorem filter_slotId_toList_ne (cf hf : ℕ) (k sid : String) (st : SlotState)
    (sig : Bool) (bc : ℚ) (mv : Option Detection) (h : ¬ k = sid) :
    ((stepSlot cf hf k st sig bc mv).2.toList).filter
      (fun u => u.slotId = sid) = [] := by
  unfold stepSlot
  split_ifs <;> simp [h]

theorem filter_slotId_toList_self (cf hf : ℕ) (sid : String) (st : SlotState)
    (sig : Bool) (bc : ℚ) (mv : Option Detection) :
    ((stepSlot cf hf sid st sig bc mv).2.toList).filter
      (fun u => u.slotId = sid) =
      (stepSlot cf hf sid st sig bc mv).2.toList := by
  unfold stepSlot
  split_ifs <;> simp

theorem processSlot_updates_ne {thr : ℚ} {cf hf : ℕ} {dets : List Detection}
    {acc : List (String × SlotState) × List SlotUpdate} {s : Slot}
    {sid : String} (h : ¬ s.id = sid) :
    ((processSlot thr cf hf dets acc s).2).filter (fun u => u.slotId = sid) =
      acc.2.filter (fun u => u.slotId = sid) := by
  cases hb : s.effBBox with
  | none => simp [processSlot, hb]
  | some b =>
    simp only [processSlot, hb]
    rw [List.filter_append, filter_slotId_toList_ne _ _ _ _ _ _ _ _ h,
      List.append_nil]

theorem processSlot_updates_self {thr : ℚ} {cf hf : ℕ} {dets : List Detection}
    {acc : List (String × SlotState) × List SlotUpdate} {s : Slot}
    {sid : String} {b : SlotBBox} (hid : s.id = sid)
    (hb : s.effBBox = some b) :
    ((processSlot thr cf hf dets acc s).2).filter (fun u => u.slotId = sid) =
      acc.2.filter (fun u => u.slotId = sid) ++
        (stepSlot cf hf sid ((lookupState acc.1 sid).getD initSlotState)
          (bestMatch thr (slotRect b) dets).1
          (bestMatch thr (slotRect b) dets).2.1
          (bestMatch thr (slotRect b) dets).2.2).2.toList := by
  subst hid
  simp only [processSlot, hb]
  rw [List.filter_append, filter_slotId_toList_self,
    lookupState_getOrInit_self, Option.getD_some]

theorem foldl_processSlot_ne {thr : ℚ} {cf hf : ℕ} {dets : List Detection}
    {sid : String} (xs : List Slot)
    (acc : List (String × SlotState) × List SlotUpdate)
    (h : ∀ s ∈ xs, ¬ s.id = sid) :
    lookupState (xs.foldl (processSlot thr cf hf dets) acc).1 sid =
        lookupState acc.1 sid ∧
      ((xs.foldl (processSlot thr cf hf dets) acc).2).filter
          (fun u => u.slotId = sid) =
        acc.2.filter (fun u => u.slotId = sid) := by
  induction xs generalizing acc with
  | nil => exact ⟨rfl, rfl⟩
  | cons s rest ih =>
    rw [List.foldl_cons]
    obtain ⟨h1, h2⟩ := ih (processSlot thr cf hf dets acc s)
      (fun s' hs' => h s' (List.mem_cons_of_mem _ hs'))
    exact ⟨h1.trans (processSlot_lookup_ne (h s (List.mem_cons_self _ _))),
      h2.trans (processSlot_updates_ne (h s (List.mem_cons_self _ _)))⟩

/-- Effect of one (arbitrary, multi-slot) `update` call on the slot with
id `sid`, when the slots list contains exactly one entry with that id
and it carries bbox `b`: the stored state advances by one `stepSlot` on
the call's occupancy signal, and the updates emitted for `sid` are
exactly that step's emission — the other slots in the same call cannot
interfere. -/
theorem update_keyed (d : SlotOccupancyDetector) (dets : List Detection)
    (xs ys : List Slot) (s : Slot) (sid : String) (b : SlotBBox)
    (hid : s.id = sid) (hb : s.effBBox = some b)
    (hxs : ∀ s' ∈ xs, ¬ s'.id = sid) (hys : ∀ s' ∈ ys, ¬ s'.id = sid) :
    lookupState (d.update dets (xs ++ s :: ys)).1.slot_states sid =
        some ((stepSlot d.confirmation_frames d.hysteresis_frames sid
          ((lookupState d.slot_states sid).getD initSlotState)
          (bestMatch d.iou_threshold (slotRect b) dets).1
          (bestMatch d.iou_threshold (slotRect b) dets).2.1
          (bestMatch d.iou_threshold (slotRect b) dets).2.2).1) ∧
      ((d.update dets (xs ++ s :: ys)).2).filter (fun u => u.slotId = sid) =
        (stepSlot d.confirmation_frames d.hysteresis_frames sid
          ((lookupState d.slot_states sid).getD initSlotState)
          (bestMatch d.iou_threshold (slotRect b) dets).1
          (bestMatch d.iou_threshold (slotRect b) dets).2.1
          (bestMatch d.iou_threshold (slotRect b) dets).2.2).2.toList := by
  have hstates : (d.update dets (xs ++ s :: ys)).1.slot_states =
      ((xs ++ s :: ys).foldl (processSlot d.iou_threshold d.confirmation_frames
        d.hysteresis_frames dets) (d.slot_states, [])).1 := rfl
  have hupd : (d.update dets (xs ++ s :: ys)).2 =
      ((xs ++ s :: ys).foldl (processSlot d.iou_threshold d.confirmation_frames
        d.hysteresis_frames dets) (d.slot_states, [])).2 := rfl
  obtain ⟨hx1, hx2⟩ := foldl_processSlot_ne xs (d.slot_states, []) hxs
  obtain ⟨hy1, hy2⟩ := foldl_processSlot_ne ys
    (processSlot d.iou_threshold d.confirmation_frames d.hysteresis_frames dets
      (xs.foldl (processSlot d.iou_threshold d.confirmation_frames
        d.hysteresis_frames dets) (d.slot_states, [])) s) hys
  constructor
  · rw [hstates, List.foldl_append, List.foldl_cons, hy1,
      processSlot_lookup_self hid hb, hx1]
  · rw [hupd, List.foldl_append, List.foldl_cons, hy2,
      processSlot_updates_self hid hb, hx2, hx1]
    simp

theorem update_config (d : SlotOccupancyDetector) (dets : List Detection)
    (slots : List Slot) :
    (d.update dets slots).1.iou_threshold = d.iou_threshold ∧
    (d.update dets slots).1.confirmation_frames = d.confirmation_frames ∧
    (d.update dets slots).1.hysteresis_frames = d.hysteresis_frames :=
  ⟨rfl, rfl, rfl⟩

theorem runDetector_fst_append (d : SlotOccupancyDetector)
    (cs : List (List Detection × List Slot)) (c : List Detection × List Slot) :
    (runDetector d (cs ++ [c])).1 = ((runDetector d cs).1.update c.1 c.2).1 := by
  induction cs generalizing d with
  | nil => rfl
  | cons y ys ih => simpa [runDetector] using ih (d.update y.1 y.2).1

theorem take_succ_getD {α : Type} (l : List α) (dflt : α) (i : ℕ)
    (h : i < l.length) :
    l.take (i + 1) = l.take i ++ [l.getD i dflt] := by
  induction l generalizing i with
  | nil => simp at h
  | cons a l ih =>
    cases i with
    | zero => simp
    | succ i =>
      simp only [List.take_succ_cons, List.getD_cons_succ, List.cons_append,
        List.cons.injEq, true_and]
      exact ih i (by simpa using h)

theorem signalsOf_getD (thr : ℚ) (b : SlotBBox)
    (calls : List (List Detection × List Slot)) (i : ℕ) :
    (signalsOf thr b calls).getD i false =
      (bestMatch thr (slotRect b) (calls.getD i ([], [])).1).1 := by
  induction calls generalizing i with
  | nil => cases i <;> simp [signalsOf, bestMatch]
  | cons c rest ih =>
    cases i with
    | zero => simp [signalsOf]
    | succ i => simpa [signalsOf] using ih i

theorem runDetector_config (d : SlotOccupancyDetector)
    (calls : List (List Detection × List Slot)) :
    (runDetector d calls).1.iou_threshold = d.iou_threshold ∧
    (runDetector d calls).1.confirmation_frames = d.confirmation_frames ∧
    (runDetector d calls).1.hysteresis_frames = d.hysteresis_frames := by
  induction calls generalizing d with
  | nil => exact ⟨rfl, rfl, rfl⟩
  | cons c rest ih =>
    simpa [runDetector, SlotOccupancyDetector.update] using
      ih (d.update c.1 c.2).1

theorem slotProj_eq_some {d : SlotOccupancyDetector} {sid : String}
    {st : SlotState} (h : lookupState d.slot_states sid = some st) :
    slotProj d sid = (st.occupied, st.counter) := by
  unfold slotProj
  rw [h]

theorem slotProj_getD (d : SlotOccupancyDetector) (sid : String) :
    (((lookupState d.slot_states sid).getD initSlotState).occupied,
      ((lookupState d.slot_states sid).getD initSlotState).counter) =
      slotProj d sid := by
  unfold slotProj
  cases h : lookupState d.slot_states sid <;> simp [h, initSlotState]

theorem runDetector_proj (thr : ℚ) (cf hf : ℕ) (sid : String) (b : SlotBBox)
    (calls : List (List Detection × List Slot))
    (hcalls : ∀ c ∈ calls, ∃ xs s ys, c.2 = xs ++ s :: ys ∧ s.id = sid ∧
      s.effBBox = some b ∧ (∀ s' ∈ xs, ¬ s'.id = sid) ∧
      (∀ s' ∈ ys, ¬ s'.id = sid)) :
    ∀ i, i ≤ calls.length →
      slotProj (runDetector (mkDetector thr cf hf) (calls.take i)).1 sid =
        stAt cf hf (signalsOf thr b calls) i := by
  intro i
  induction i with
  | zero => intro _; rfl
  | succ i ih =>
    intro hi
    have hlt : i < calls.length := by omega
    have htake := take_succ_getD calls ([], []) i hlt
    have hmem : calls.getD i ([], []) ∈ calls := by
      rw [List.getD_eq_getElem calls ([], []) hlt]
      exact List.getElem_mem hlt
    obtain ⟨xs, s, ys, hsplit, hid, hb, hxs, hys⟩ := hcalls _ hmem
    have hproj := ih (le_of_lt hlt)
    have hc := runDetector_config (mkDetector thr cf hf) (calls.take i)
    have hT : (runDetector (mkDetector thr cf hf)
        (calls.take i)).1.iou_threshold = thr := hc.1
    have hA : (runDetector (mkDetector thr cf hf)
        (calls.take i)).1.confirmation_frames = cf := hc.2.1
    have hB : (runDetector (mkDetector thr cf hf)
        (calls.take i)).1.hysteresis_frames = hf := hc.2.2
    obtain ⟨hk1, hk2⟩ := update_keyed
      (runDetector (mkDetector thr cf hf) (calls.take i)).1
      (calls.getD i ([], [])).1 xs ys s sid b hid hb hxs hys
    rw [htake, runDetector_fst_append, hsplit,
      slotProj_eq_some hk1, stepSlot_proj, hA, hB, hT,
      slotProj_getD, hproj, ← signalsOf_getD thr b calls i]
    rfl

theorem runDetector_updates_getD (d : SlotOccupancyDetector)
    (calls : List (List Detection × List Slot)) :
    ∀ i, i < calls.length →
      (runDetector d calls).2.getD i [] =
        ((runDetector d (calls.take i)).1.update (calls.getD i ([], [])).1
          (calls.getD i ([], [])).2).2 := by
  induction calls generalizing d with
  | nil => intro i h; simp at h
  | cons c rest ih =>
    intro i h
    cases i with
    | zero => rfl
    | succ i =>
      have h' : i < rest.length := by simpa using h
      simpa [runDetector] using ih (d.update c.1 c.2).1 i h'

theorem toList_emit_match (sid : String) (bc : ℚ) (mv : Option Detection)
    (e : Option Bool) :
    (match e with
      | some true =>
        some (⟨sid, true, bc, mv.map (fun d : Detection => d.class_name)⟩ : SlotUpdate)
      | some false => some ⟨sid, false, 0, none⟩
      | none => none).toList =
      match e with
      | some true =>
        [(⟨sid, true, bc, mv.map (fun d : Detection => d.class_name)⟩ : SlotUpdate)]
      | some false => [(⟨sid, false, 0, none⟩ : SlotUpdate)]
      | none => ([] : List SlotUpdate) := by
  rcases e with _ | b
  · rfl
  · cases b <;> rfl

theorem runDetector_updates_emit (thr : ℚ) (cf hf : ℕ) (sid : String)
    (b : SlotBBox) (calls : List (List Detection × List Slot))
    (hcalls : ∀ c ∈ calls, ∃ xs s ys, c.2 = xs ++ s :: ys ∧ s.id = sid ∧
      s.effBBox = some b ∧ (∀ s' ∈ xs, ¬ s'.id = sid) ∧
      (∀ s' ∈ ys, ¬ s'.id = sid))
    (i : ℕ) (h : i < calls.length) :
    ((runDetector (mkDetector thr cf hf) calls).2.getD i []).filter
        (fun u => u.slotId = sid) =
      match emitAt cf hf (signalsOf thr b calls) i with
      | some true => [⟨sid, true,
          (bestMatch thr (slotRect b) (calls.getD i ([], [])).1).2.1,
          ((bestMatch thr (slotRect b) (calls.getD i ([], [])).1).2.2).map
            (fun dt => dt.class_name)⟩]
      | some false => [⟨sid, false, 0, none⟩]
      | none => [] := by
  have hmem : calls.getD i ([], []) ∈ calls := by
    rw [List.getD_eq_getElem calls ([], []) h]
    exact List.getElem_mem h
  obtain ⟨xs, s, ys, hsplit, hid, hb, hxs, hys⟩ := hcalls _ hmem
  have hproj := runDetector_proj thr cf hf sid b calls hcalls i (le_of_lt h)
  have hc := runDetector_config (mkDetector thr cf hf) (calls.take i)
  have hT : (runDetector (mkDetector thr cf hf)
      (calls.take i)).1.iou_threshold = thr := hc.1
  have hA : (runDetector (mkDetector thr cf hf)
      (calls.take i)).1.confirmation_frames = cf := hc.2.1
  have hB : (runDetector (mkDetector thr cf hf)
      (calls.take i)).1.hysteresis_frames = hf := hc.2.2
  have hemit : emitAt cf hf (signalsOf thr b calls) i =
      memit cf hf (stAt cf hf (signalsOf thr b calls) i)
        ((bestMatch thr (slotRect b) (calls.getD i ([], [])).1).1) := by
    rw [emitAt, signalsOf_getD]
  obtain ⟨-, hk2⟩ := update_keyed
    (runDetector (mkDetector thr cf hf) (calls.take i)).1
    (calls.getD i ([], [])).1 xs ys s sid b hid hb hxs hys
  rw [runDetector_updates_getD _ calls i h, hsplit, hk2, hA, hB, hT,
    stepSlot_emit, toList_emit_match, slotProj_getD, hproj, hemit]

/-- C1: for every sequence of calls to `SlotOccupancyDetector.update` on
a fresh detector — each call passing its own detections and its own
multi-slot list, in which the tracked slot id occurs exactly once,
carrying bounding box `b`, alongside arbitrary other slots — with
`confirmation_frames ≥ 1` and `hysteresis_frames ≥ 1`: (i) the stored
`(occupied, counter)` pair of the slot follows the two-state debounce
machine `mstep` driven by the per-call occupied signal (max IoU of the
slot bbox against the call's detections reaches `iou_threshold`),
starting Unoccupied with counter `0`, unaffected by the other slots in
each call; (ii) each call emits for this slot exactly the machine's
transition event — one `{slotId, isOccupied := true, confidence,
vehicleType}` update on an occupy transition, one `{slotId,
isOccupied := false, confidence := 0}` update on a vacate transition,
nothing otherwise; and (iii)/(iv) an occupy (resp. vacate) event is
emitted at call `i` iff the matching signal held for the last
`confirmation_frames` (resp. `hysteresis_frames`) consecutive calls
while the slot state stayed Unoccupied (resp. Occupied); any break
resets the streak. -/
theorem C1_slot_debounce_machine
    (thr : ℚ) (cf hf : ℕ) (hcf : 1 ≤ cf) (hhf : 1 ≤ hf)
    (sid : String) (b : SlotBBox)
    (calls : List (List Detection × List Slot))
    (hcalls : ∀ c ∈ calls, ∃ xs s ys, c.2 = xs ++ s :: ys ∧ s.id = sid ∧
      s.effBBox = some b ∧ (∀ s' ∈ xs, ¬ s'.id = sid) ∧
      (∀ s' ∈ ys, ¬ s'.id = sid)) :
    (∀ i, i ≤ calls.length →
      slotProj (runDetector (mkDetector thr cf hf) (calls.take i)).1 sid =
        stAt cf hf (signalsOf thr b calls) i) ∧
    (∀ i, i < calls.length →
      ((runDetector (mkDetector thr cf hf) calls).2.getD i []).filter
          (fun u => u.slotId = sid) =
        match emitAt cf hf (signalsOf thr b calls) i with
        | some true => [⟨sid, true,
            (bestMatch thr (slotRect b) (calls.getD i ([], [])).1).2.1,
            ((bestMatch thr (slotRect b) (calls.getD i ([], [])).1).2.2).map
              (fun dt => dt.class_name)⟩]
        | some false => [⟨sid, false, 0, none⟩]
        | none => []) ∧
    (∀ i, emitAt cf hf (signalsOf thr b calls) i = some true ↔
      cf ≤ i + 1 ∧ ∀ j, i + 1 - cf ≤ j → j ≤ i →
        (signalsOf thr b calls).getD j false = true ∧
        (stAt cf hf (signalsOf thr b calls) j).1 = false) ∧
    (∀ i, emitAt cf hf (signalsOf thr b calls) i = some false ↔
      hf ≤ i + 1 ∧ ∀ j, i + 1 - hf ≤ j → j ≤ i →
        (signalsOf thr b calls).getD j false = false ∧
        (stAt cf hf (signalsOf thr b calls) j).1 = true) :=
  ⟨runDetector_proj thr cf hf sid b calls hcalls,
   fun i hi => runDetector_updates_emit thr cf hf sid b calls hcalls i hi,
   fun i => emitAt_occupy_iff cf hf (signalsOf thr b calls) hcf hhf i,
   fun i => emitAt_vacate_iff cf hf (signalsOf thr b calls) hcf hhf i⟩

/-- Witness for `C1_slot_debounce_machine`: two calls, each passing two
slots ("A" then "B") with a vehicle fully covering slot "A" in both
frames, `confirmation_frames = 2`; the second call emits the occupy
update for "A". -/
theorem C1_witness :
    (((runDetector (mkDetector (3/10) 2 2)
        [([⟨"car", 9/10, ⟨0, 0, 10, 10⟩, none⟩],
          [⟨"A", some ⟨0, 0, 10, 10⟩, none⟩, ⟨"B", some ⟨20, 0, 10, 10⟩, none⟩]),
         ([⟨"car", 9/10, ⟨0, 0, 10, 10⟩, none⟩],
          [⟨"A", some ⟨0, 0, 10, 10⟩, none⟩,
            ⟨"B", some ⟨20, 0, 10, 10⟩, none⟩])]).2.getD 1 []).filter
        (fun u => u.slotId = "A")) =
      match emitAt 2 2 (signalsOf (3/10) ⟨0, 0, 10, 10⟩
          [([⟨"car", 9/10, ⟨0, 0, 10, 10⟩, none⟩],
            [⟨"A", some ⟨0, 0, 10, 10⟩, none⟩, ⟨"B", some ⟨20, 0, 10, 10⟩, none⟩]),
           ([⟨"car", 9/10, ⟨0, 0, 10, 10⟩, none⟩],
            [⟨"A", some ⟨0, 0, 10, 10⟩, none⟩,
              ⟨"B", some ⟨20, 0, 10, 10⟩, none⟩])]) 1 with
      | some true => [⟨"A", true,
          (bestMatch (3/10) (slotRect ⟨0, 0, 10, 10⟩)
            ((([([⟨"car", 9/10, ⟨0, 0, 10, 10⟩, none⟩],
                [⟨"A", some ⟨0, 0, 10, 10⟩, none⟩,
                  ⟨"B", some ⟨20, 0, 10, 10⟩, none⟩]),
               ([⟨"car", 9/10, ⟨0, 0, 10, 10⟩, none⟩],
                [⟨"A", some ⟨0, 0, 10, 10⟩, none⟩,
                  ⟨"B", some ⟨20, 0, 10, 10⟩, none⟩])] :
                List (List Detection × List Slot)).getD 1 ([], [])).1)).2.1,
          ((bestMatch (3/10) (slotRect ⟨0, 0, 10, 10⟩)
            ((([([⟨"car", 9/10, ⟨0, 0, 10, 10⟩, none⟩],
                [⟨"A", some ⟨0, 0, 10, 10⟩, none⟩,
                  ⟨"B", some ⟨20, 0, 10, 10⟩, none⟩]),
               ([⟨"car", 9/10, ⟨0, 0, 10, 10⟩, none⟩],
                [⟨"A", some ⟨0, 0, 10, 10⟩, none⟩,
                  ⟨"B", some ⟨20, 0, 10, 10⟩, none⟩])] :
                List (List Detection × List Slot)).getD 1 ([], [])).1)).2.2).map
            (fun dt => dt.class_name)⟩]
      | some false => [⟨"A", false, 0, none⟩]
      | none => [] :=
  (C1_slot_debounce_machine (3/10) 2 2 (by decide) (by decide) "A"
    ⟨0, 0, 10, 10⟩
    [([⟨"car", 9/10, ⟨0, 0, 10, 10⟩, none⟩],
      [⟨"A", some ⟨0, 0, 10, 10⟩, none⟩, ⟨"B", some ⟨20, 0, 10, 10⟩, none⟩]),
     ([⟨"car", 9/10, ⟨0, 0, 10, 10⟩, none⟩],
      [⟨"A", some ⟨0, 0, 10, 10⟩, none⟩, ⟨"B", some ⟨20, 0, 10, 10⟩, none⟩])]
    (by
      intro c hc
      simp only [List.mem_cons, List.not_mem_nil, or_false] at hc
      refine ⟨[], ⟨"A", some ⟨0, 0, 10, 10⟩, none⟩,
        [⟨"B", some ⟨20, 0, 10, 10⟩, none⟩], ?_, rfl, rfl, by simp, ?_⟩
      · rcases hc with h | h <;> subst h <;> rfl
      · intro s' hs'
        rw [List.mem_singleton.mp hs']
        decide)).2.1
    1 (by decide)

/-- Translation of the `DetectionEvent` dataclass of `publisher.py`. -/
structure DetectionEvent where
  camera_id : String
  parking_lot_id : String
  timestamp : String
  detections : List Detection
  slot_updates : List SlotUpdate
  frame_number : ℕ
  zone_id : Option String := none
deriving DecidableEq, Repr

/-- Outcome of the awaited HTTP POST inside `EventPublisher._flush`. -/
inductive FlushOutcome
  | ok
  | httpError
  | clientError
  | otherError
deriving DecidableEq, Repr

/-- Transport failures of the batch POST: a non-200 response status or a
raised `aiohttp.ClientError`; both branches of `_flush` run
`self._queue = events + self._queue`. -/
def FlushOutcome.isTransportFailure : FlushOutcome → Bool
  | .httpError => true
  | .clientError => true
  | _ => false

/-- Translation of `EventPublisher._flush` acting on the pending queue.
`q` is `self._queue` on entry; `arrived` are the events appended by
`publish` calls interleaved during the awaited POST (the queue was
cleared before the await, so they are the whole queue at that point).
Returns `(batch sent, queue when _flush returns)`. -/
def flushQueue (q arrived : List DetectionEvent) (outcome : FlushOutcome) :
    List DetectionEvent × List DetectionEvent :=
  if q.isEmpty then ([], q ++ arrived)
  else
    match outcome with
    | .ok => (q, arrived)
    | .httpError => (q, q ++ arrived)
    | .clientError => (q, q ++ arrived)
    | .otherError => (q, arrived)

/-- C2: when a batch flush of `EventPublisher` fails in transport
(non-200 status or `aiohttp.ClientError`), the whole failed batch is
prepended back onto the pending queue, in its original order, ahead of
any events queued during the flush; hence no event of the batch is lost
and the failed batch is the front of the batch sent by the next flush
attempt, whatever is queued meanwhile (at-least-once delivery, no
deduplication). -/
theorem C2_failed_batch_requeued (q arrived : List DetectionEvent)
    (outcome : FlushOutcome) (hq : q ≠ [])
    (hfail : outcome.isTransportFailure = true) :
    (flushQueue q arrived outcome).2 = q ++ arrived ∧
    (∀ e ∈ q, e ∈ (flushQueue q arrived outcome).2) ∧
    (∀ later arrived2 outcome2,
      (flushQueue ((flushQueue q arrived outcome).2 ++ later) arrived2 outcome2).1 =
        (q ++ arrived) ++ later) := by
  have hne : q.isEmpty = false := by
    cases q
    · exact absurd rfl hq
    · rfl
  have h2 : (flushQueue q arrived outcome).2 = q ++ arrived := by
    cases outcome <;> simp_all [flushQueue, FlushOutcome.isTransportFailure]
  refine ⟨h2, fun e he => h2 ▸ List.mem_append_left arrived he, ?_⟩
  intro later arrived2 outcome2
  rw [h2]
  cases outcome2 <;> simp [flushQueue, hq]

/-- Witness for `C2_failed_batch_requeued` at a concrete one-event
queue and an HTTP error. -/
theorem C2_witness :
    (flushQueue [⟨"cam", "lot", "t0", [], [], 1, none⟩] [] .httpError).2 =
      [⟨"cam", "lot", "t0", [], [], 1, none⟩] ++ [] :=
  (C2_failed_batch_requeued [⟨"cam", "lot", "t0", [], [], 1, none⟩] [] .httpError
    (by decide) rfl).1

/-- Overflow policy of `CameraStream._capture_loop`
(`put_nowait`, on `queue.Full` one `get_nowait` then `put_nowait`):
bounded FIFO with drop-oldest overflow, non-blocking for the producer.
A Python `queue.Queue(maxsize ≤ 0)` is unbounded, hence the first
branch. -/
def pushFrame {α : Type} (maxsize : ℕ) (buf : List α) (f : α) : List α :=
  if maxsize = 0 then buf ++ [f]
  else if buf.length < maxsize then buf ++ [f]
  else
    match buf with
    | [] => []
    | _ :: rest => rest ++ [f]

/-- Repeated insertion by the capture loop. -/
def pushFrames {α : Type} (maxsize : ℕ) (buf : List α) (fs : List α) : List α :=
  fs.foldl (pushFrame maxsize) buf

theorem pushFrames_eq {α : Type} (maxsize : ℕ) (h1 : 1 ≤ maxsize) :
    ∀ (fs buf : List α), buf.length ≤ maxsize →
      pushFrames maxsize buf fs =
        (buf ++ fs).drop (buf.length + fs.length - maxsize) := by
  intro fs
  induction fs with
  | nil =>
    intro buf hb
    have hz : buf.length + List.length ([] : List α) - maxsize = 0 := by
      simp only [List.length_nil, Nat.add_zero]
      omega
    unfold pushFrames
    rw [List.foldl_nil, List.append_nil, hz, List.drop_zero]
  | cons f fs ih =>
    intro buf hb
    show pushFrames maxsize (pushFrame maxsize buf f) fs = _
    by_cases hlt : buf.length < maxsize
    · have hpf : pushFrame maxsize buf f = buf ++ [f] := by
        unfold pushFrame
        rw [if_neg (by omega), if_pos hlt]
      rw [hpf, ih (buf ++ [f]) (by simp only [List.length_append]; simp; omega)]
      have harr : (buf ++ [f]) ++ fs = buf ++ f :: fs := by simp
      have hcnt : (buf ++ [f]).length + fs.length - maxsize =
          buf.length + (f :: fs).length - maxsize := by
        simp only [List.length_append, List.length_cons, List.length_nil]
        omega
      rw [harr, hcnt]
    · have hfull : buf.length = maxsize := by omega
      obtain ⟨b, rest, hbr⟩ : ∃ b rest, buf = b :: rest := by
        cases buf with
        | nil => simp at hfull; omega
        | cons x xs => exact ⟨x, xs, rfl⟩
      have hpf : pushFrame maxsize buf f = rest ++ [f] := by
        unfold pushFrame
        rw [if_neg (by omega), if_neg (by omega), hbr]
      have hrest : rest.length + 1 = maxsize := by
        rw [hbr] at hfull
        simpa using hfull
      rw [hpf, ih (rest ++ [f]) (by simp only [List.length_append]; simp; omega), hbr]
      have hc1 : (rest ++ [f]).length + fs.length - maxsize = fs.length := by
        simp only [List.length_append, List.length_cons, List.length_nil]
        omega
      have hc2 : (b :: rest).length + (f :: fs).length - maxsize = fs.length + 1 := by
        simp only [List.length_cons]
        omega
      rw [hc1, hc2, List.cons_append, List.drop_succ_cons, List.append_assoc,
        List.singleton_append]

/-- C5: with a fixed capacity `N ≥ 1`, the capture loop's overflow
policy (modelled by the non-blocking `pushFrame`) keeps the buffer at
most `N` long, drops exactly the oldest entries on overflow, and after
pushing a sequence of `N + 1` or more frames the buffer holds exactly
the `N` most recent frames in insertion order. -/
theorem C5_buffer_drop_oldest {α : Type} (maxsize : ℕ) (h1 : 1 ≤ maxsize)
    (buf : List α) (hb : buf.length ≤ maxsize) (fs : List α) :
    pushFrames maxsize buf fs =
      (buf ++ fs).drop (buf.length + fs.length - maxsize) ∧
    (pushFrames maxsize buf fs).length ≤ maxsize ∧
    (maxsize + 1 ≤ fs.length →
      pushFrames maxsize buf fs = fs.drop (fs.length - maxsize)) := by
  have he := pushFrames_eq maxsize h1 fs buf hb
  refine ⟨he, ?_, ?_⟩
  · rw [he, List.length_drop]
    simp
    omega
  · intro hN
    rw [he]
    have : buf.length + fs.length - maxsize =
        buf.length + (fs.length - maxsize) := by omega
    rw [this, List.drop_append]

/-- Witness for `C5_buffer_drop_oldest`: pushing three frames into an
empty capacity-2 buffer keeps the two most recent. -/
theorem C5_witness :
    pushFrames 2 ([] : List ℕ) [10, 20, 30] =
      [10, 20, 30].drop ([10, 20, 30].length - 2) :=
  (C5_buffer_drop_oldest 2 (by decide) [] (by decide) [10, 20, 30]).2.2 (by decide)

/-- State of a `FrameSkipper` instance (`optimization.py`).  Intervals
are Python ints, latencies Python floats modelled as rationals. -/
structure FrameSkipper where
  target_latency_ms : ℚ
  min_interval : ℤ
  max_interval : ℤ
  current_interval : ℤ
  last_latencies : List ℚ
deriving DecidableEq, Repr

/-- Skipper as built by `FrameSkipper.__init__`:
`current_interval = min_interval`, empty latency deque. -/
def mkFrameSkipper (target : ℚ) (mn mx : ℤ) : FrameSkipper :=
  ⟨target, mn, mx, mn, []⟩

/-- Append to the `deque(maxlen=10)` of latency samples. -/
def pushLatency (l : List ℚ) (x : ℚ) : List ℚ :=
  (l ++ [x]).drop ((l ++ [x]).length - 10)

/-- Translation of `FrameSkipper.update`. -/
def FrameSkipper.update (fs : FrameSkipper) (latency_ms : ℚ) :
    FrameSkipper × ℤ :=
  let lats := pushLatency fs.last_latencies latency_ms
  if lats.length < 3 then
    ({ fs with last_latencies := lats }, fs.current_interval)
  else
    let avg := lats.sum / (lats.length : ℚ)
    let ci :=
      if fs.target_latency_ms * (12 / 10) < avg then
        min (fs.current_interval + 1) fs.max_interval
      else if avg < fs.target_latency_ms * (5 / 10) then
        max (fs.current_interval - 1) fs.min_interval
      else fs.current_interval
    ({ fs with last_latencies := lats, current_interval := ci }, ci)

/-- Sequence of `update` calls. -/
def FrameSkipper.run (fs : FrameSkipper) : List ℚ → FrameSkipper
  | [] => fs
  | x :: xs => ((fs.update x).1).run xs

theorem FrameSkipper.update_fields (fs : FrameSkipper) (x : ℚ) :
    (fs.update x).1.min_interval = fs.min_interval ∧
    (fs.update x).1.max_interval = fs.max_interval ∧
    (fs.update x).1.target_latency_ms = fs.target_latency_ms := by
  simp only [FrameSkipper.update]
  split_ifs <;> exact ⟨rfl, rfl, rfl⟩

theorem FrameSkipper.update_bounds (fs : FrameSkipper) (x : ℚ)
    (h : fs.min_interval ≤ fs.max_interval)
    (h1 : fs.min_interval ≤ fs.current_interval)
    (h2 : fs.current_interval ≤ fs.max_interval) :
    fs.min_interval ≤ (fs.update x).1.current_interval ∧
    (fs.update x).1.current_interval ≤ fs.max_interval := by
  simp only [FrameSkipper.update]
  split_ifs <;> constructor <;> simp <;> omega

theorem FrameSkipper.run_bounds (lats : List ℚ) (fs : FrameSkipper)
    (h : fs.min_interval ≤ fs.max_interval)
    (h1 : fs.min_interval ≤ fs.current_interval)
    (h2 : fs.current_interval ≤ fs.max_interval) :
    fs.min_interval ≤ (fs.run lats).current_interval ∧
    (fs.run lats).current_interval ≤ fs.max_interval ∧
    (fs.run lats).min_interval = fs.min_interval ∧
    (fs.run lats).max_interval = fs.max_interval := by
  induction lats generalizing fs with
  | nil => exact ⟨h1, h2, rfl, rfl⟩
  | cons x xs ih =>
    have hf := FrameSkipper.update_fields fs x
    have hb := FrameSkipper.update_bounds fs x h h1 h2
    have := ih (fs.update x).1 (by rw [hf.1, hf.2.1]; exact h)
      (by rw [hf.1]; exact hb.1) (by rw [hf.2.1]; exact hb.2)
    exact ⟨by rw [← hf.1]; exact this.1, by rw [← hf.2.1]; exact this.2.1,
      by rw [← hf.1]; exact this.2.2.1, by rw [← hf.2.1]; exact this.2.2.2⟩

/-- C6: for a `FrameSkipper` constructed with
`min_interval ≤ max_interval`, the current interval equals
`min_interval` initially and stays within
`[min_interval, max_interval]` after any sequence of `update` calls;
and each `update` call adjusts the interval exactly as specified: no
change until the 10-sample rolling window holds at least 3 samples,
`+1` clamped to `max_interval` when the window average exceeds
`1.2 × target`, `-1` clamped to `min_interval` when it is below
`0.5 × target`, unchanged otherwise. -/
theorem C6_frame_skipper_interval (t : ℚ) (mn mx : ℤ) (h : mn ≤ mx)
    (lats : List ℚ) :
    (mkFrameSkipper t mn mx).current_interval = mn ∧
    mn ≤ ((mkFrameSkipper t mn mx).run lats).current_interval ∧
    ((mkFrameSkipper t mn mx).run lats).current_interval ≤ mx ∧
    (∀ fs : FrameSkipper, ∀ x : ℚ,
      (fs.update x).1.current_interval =
        (if (pushLatency fs.last_latencies x).length < 3 then
          fs.current_interval
        else if fs.target_latency_ms * (12 / 10) <
            (pushLatency fs.last_latencies x).sum /
              ((pushLatency fs.last_latencies x).length : ℚ) then
          min (fs.current_interval + 1) fs.max_interval
        else if (pushLatency fs.last_latencies x).sum /
              ((pushLatency fs.last_latencies x).length : ℚ) <
            fs.target_latency_ms * (5 / 10) then
          max (fs.current_interval - 1) fs.min_interval
        else fs.current_interval)) := by
  have hr := FrameSkipper.run_bounds lats (mkFrameSkipper t mn mx) h
    (le_refl mn) h
  refine ⟨rfl, hr.1, hr.2.1, ?_⟩
  intro fs x
  simp only [FrameSkipper.update]
  split_ifs <;> rfl

/-- Witness for `C6_frame_skipper_interval`: three slow samples push the
interval up by one from the minimum, still within `[1, 10]`. -/
theorem C6_witness :
    1 ≤ ((mkFrameSkipper 100 1 10).run [500, 500, 500]).current_interval :=
  (C6_frame_skipper_interval 100 1 10 (by decide) [500, 500, 500]).2.1

/-- Status of a `concurrent.futures.Future` as observed by
`AsyncInferenceQueue.get_result` at its poll: resolved with a value
(abstracted to `ℕ`), failed (exception raised by `future.result`,
including cancellation), or still pending when the timeout expires. -/
inductive FutureStatus
  | resolved (value : ℕ)
  | failed
  | stillPending
deriving DecidableEq, Repr

/-- Python dict assignment `d[k] = v`: overwrite in place when the key
exists, append otherwise. -/
def assocInsert (l : List (ℕ × FutureStatus)) (k : ℕ) (v : FutureStatus) :
    List (ℕ × FutureStatus) :=
  if l.any (fun p => p.1 = k) then l.map (fun p => if p.1 = k then (k, v) else p)
  else l ++ [(k, v)]

/-- Python dict deletion `del d[k]`. -/
def assocErase (l : List (ℕ × FutureStatus)) (k : ℕ) :
    List (ℕ × FutureStatus) :=
  l.filter (fun p => ¬ p.1 = k)

/-- Python `min(d.keys())`: `none` models the `ValueError` on an empty
dict. -/
def minKey : List (ℕ × FutureStatus) → Option ℕ
  | [] => none
  | p :: l => some ((l.map Prod.fst).foldl min p.1)

/-- State of an `AsyncInferenceQueue` instance: the bound and the
pending map `frame_id ↦ future`. -/
structure AsyncInferenceQueue where
  max_queue_size : ℕ
  pending : List (ℕ × FutureStatus)
deriving DecidableEq, Repr

/-- Translation of `AsyncInferenceQueue.submit`; the submitted work is
abstracted to the status its future will be observed in.  `none` models
the `ValueError` `min` raises on an empty dict (reachable only with
`max_queue_size = 0`). -/
def AsyncInferenceQueue.submit (q : AsyncInferenceQueue) (frame_id : ℕ)
    (fut : FutureStatus) : Option AsyncInferenceQueue :=
  if q.max_queue_size ≤ q.pending.length then
    match minKey q.pending with
    | none => none
    | some oldest =>
      some { q with pending := assocInsert (assocErase q.pending oldest) frame_id fut }
  else
    some { q with pending := assocInsert q.pending frame_id fut }

/-- Translation of `AsyncInferenceQueue.get_result`: the entry is
deleted only in the branch where `future.result` returned normally. -/
def AsyncInferenceQueue.get_result (q : AsyncInferenceQueue) (frame_id : ℕ) :
    AsyncInferenceQueue × Option ℕ :=
  match (q.pending.find? (fun p => p.1 = frame_id)).map Prod.snd with
  | none => (q, none)
  | some (.resolved v) => ({ q with pending := assocErase q.pending frame_id }, some v)
  | some .failed => (q, none)
  | some .stillPending => (q, none)

theorem foldl_min_choice (xs : List ℕ) (a : ℕ) :
    xs.foldl min a = a ∨ xs.foldl min a ∈ xs := by
  induction xs generalizing a with
  | nil => exact Or.inl rfl
  | cons x xs ih =>
    rcases ih (min a x) with h | h
    · rw [List.foldl_cons, h]
      rcases min_choice a x with hm | hm
      · exact Or.inl hm
      · exact Or.inr (by rw [hm]; exact List.mem_cons_self x xs)
    · exact Or.inr (List.mem_cons_of_mem x h)

theorem foldl_min_le (xs : List ℕ) (a : ℕ) :
    xs.foldl min a ≤ a ∧ ∀ k ∈ xs, xs.foldl min a ≤ k := by
  induction xs generalizing a with
  | nil => exact ⟨le_refl a, by intro k hk; simp at hk⟩
  | cons x xs ih =>
    obtain ⟨ih1, ih2⟩ := ih (min a x)
    rw [List.foldl_cons]
    refine ⟨le_trans ih1 (min_le_left a x), ?_⟩
    intro k hk
    rcases List.mem_cons.mp hk with hk | hk
    · rw [hk]
      exact le_trans ih1 (min_le_right a x)
    · exact ih2 k hk

theorem minKey_spec (l : List (ℕ × FutureStatus)) (m : ℕ)
    (h : minKey l = some m) :
    m ∈ l.map Prod.fst ∧ ∀ k ∈ l.map Prod.fst, m ≤ k := by
  cases l with
  | nil => simp [minKey] at h
  | cons p l =>
    simp only [minKey, Option.some.injEq] at h
    subst h
    constructor
    · rcases foldl_min_choice (l.map Prod.fst) p.1 with h | h
      · rw [h]
        exact List.mem_cons_self _ _
      · exact List.mem_cons_of_mem _ h
    · intro k hk
      rcases List.mem_cons.mp hk with hk | hk
      · exact hk ▸ (foldl_min_le (l.map Prod.fst) p.1).1
      · exact (foldl_min_le (l.map Prod.fst) p.1).2 k hk

theorem minKey_isSome (l : List (ℕ × FutureStatus)) (h : l ≠ []) :
    ∃ m, minKey l = some m := by
  cases l with
  | nil => exact absurd rfl h
  | cons p l => exact ⟨_, rfl⟩

theorem assocInsert_length (l : List (ℕ × FutureStatus)) (k : ℕ)
    (v : FutureStatus) :
    (assocInsert l k v).length ≤ l.length + 1 := by
  unfold assocInsert
  split
  · simp
  · simp

theorem assocErase_length_lt (l : List (ℕ × FutureStatus)) (k : ℕ)
    (h : k ∈ l.map Prod.fst) : (assocErase l k).length < l.length := by
  induction l with
  | nil => simp at h
  | cons p l ih =>
    unfold assocErase
    by_cases hpk : p.1 = k
    · rw [List.filter_cons_of_neg (by simp [hpk])]
      have hle := List.length_filter_le
        (fun q : ℕ × FutureStatus => decide ¬ q.1 = k) l
      simp only [List.length_cons]
      omega
    · have hk : k ∈ l.map Prod.fst := by
        rcases (by simpa using h : k = p.1 ∨ ∃ x, (k, x) ∈ l) with hk | ⟨x, hx⟩
        · exact absurd hk.symm hpk
        · exact List.mem_map.mpr ⟨(k, x), hx, rfl⟩
      rw [List.filter_cons_of_pos (by simp [hpk])]
      have hlt := ih hk
      unfold assocErase at hlt
      simp only [List.length_cons]
      omega

/-- C7 counterexample: a pending entry whose future has failed.
`get_result` returns `None` but, contrary to the claim, does **not**
remove the entry from the pending map: deletion happens only in the
success branch of `AsyncInferenceQueue.get_result`. -/
theorem C7_failed_entry_not_removed :
    ((AsyncInferenceQueue.mk 10 [(1, .failed)]).get_result 1).2 = none ∧
    ((AsyncInferenceQueue.mk 10 [(1, .failed)]).get_result 1).1.pending =
      [(1, .failed)] := by
  exact ⟨rfl, rfl⟩

/-- C7 (amended): a `submit` while the pending count has reached
`max_queue_size` (≥ 1) first evicts the pending entry with the smallest
frame id and then inserts the new one, so the pending count never
exceeds `max_queue_size` and `submit` never blocks or errors; and
`get_result(id)` removes the entry and returns the result only when the
submitted work resolved successfully — on failure or timeout it returns
`None` and leaves the entry in the pending map (the original claim
said the entry is also removed once the work failed). -/
theorem C7_async_queue_amended (q : AsyncInferenceQueue) (frame_id : ℕ)
    (fut : FutureStatus)
    (hmax : 1 ≤ q.max_queue_size) (hlen : q.pending.length ≤ q.max_queue_size) :
    (∃ q', q.submit frame_id fut = some q' ∧
      q'.pending.length ≤ q.max_queue_size ∧
      q'.max_queue_size = q.max_queue_size ∧
      (q.max_queue_size ≤ q.pending.length →
        ∃ oldest, minKey q.pending = some oldest ∧
          oldest ∈ q.pending.map Prod.fst ∧
          (∀ k ∈ q.pending.map Prod.fst, oldest ≤ k) ∧
          q'.pending = assocInsert (assocErase q.pending oldest) frame_id fut)) ∧
    (∀ v, (q.pending.find? (fun p => p.1 = frame_id)).map Prod.snd =
        some (.resolved v) →
      q.get_result frame_id =
        ({ q with pending := assocErase q.pending frame_id }, some v)) ∧
    ((∀ v, ¬ (q.pending.find? (fun p => p.1 = frame_id)).map Prod.snd =
        some (.resolved v)) →
      q.get_result frame_id = (q, none)) := by
  refine ⟨?_, ?_, ?_⟩
  · by_cases hfull : q.max_queue_size ≤ q.pending.length
    · have hne : q.pending ≠ [] := by
        intro he
        rw [he] at hfull
        simp at hfull
        omega
      obtain ⟨m, hm⟩ := minKey_isSome q.pending hne
      obtain ⟨hmem, hle⟩ := minKey_spec q.pending m hm
      refine ⟨{ q with pending := assocInsert (assocErase q.pending m) frame_id fut },
        ?_, ?_, rfl, ?_⟩
      · unfold AsyncInferenceQueue.submit
        rw [if_pos hfull, hm]
      · have h1 := assocInsert_length (assocErase q.pending m) frame_id fut
        have h2 := assocErase_length_lt q.pending m hmem
        simp only
        omega
      · intro _
        exact ⟨m, hm, hmem, hle, rfl⟩
    · refine ⟨{ q with pending := assocInsert q.pending frame_id fut }, ?_, ?_, rfl,
        fun h => absurd h hfull⟩
      · unfold AsyncInferenceQueue.submit
        rw [if_neg hfull]
      · have h1 := assocInsert_length q.pending frame_id fut
        simp only
        omega
  · intro v hv
    unfold AsyncInferenceQueue.get_result
    rw [hv]
  · intro hv
    unfold AsyncInferenceQueue.get_result
    cases hf : (q.pending.find? (fun p => p.1 = frame_id)).map Prod.snd with
    | none => rfl
    | some st =>
      cases st with
      | resolved v => exact absurd hf (hv v)
      | failed => rfl
      | stillPending => rfl

/-- Witness for `C7_async_queue_amended`: a resolved entry is removed
and its value returned. -/
theorem C7_witness :
    (AsyncInferenceQueue.mk 1 [(5, FutureStatus.resolved 42)]).get_result 5 =
      ({ AsyncInferenceQueue.mk 1 [(5, FutureStatus.resolved 42)] with
          pending := assocErase [(5, FutureStatus.resolved 42)] 5 }, some 42) :=
  (C7_async_queue_amended ⟨1, [(5, FutureStatus.resolved 42)]⟩ 5 .stillPending
    (by decide) (by decide)).2.1 42 (by decide)

/-- Track record held in `SimpleTracker.tracks`
(`{"bbox": …, "hits": …, "age": …}`). -/
structure Track where
  bbox : Box
  hits : ℕ
  age : ℕ
deriving DecidableEq, Repr

/-- State of a `SimpleTracker` instance: the tracks dictionary in
insertion order and the id generator. -/
structure SimpleTracker where
  max_age : ℕ
  min_hits : ℕ
  iou_threshold : ℚ
  tracks : List (ℕ × Track)
  next_id : ℕ
deriving DecidableEq, Repr

/-- Tracker as built by `SimpleTracker.__init__`. -/
def mkTracker (max_age min_hits : ℕ) (thr : ℚ) : SimpleTracker :=
  ⟨max_age, min_hits, thr, [], 1⟩

/-- Placeholder detection for (unreachable) out-of-range indexing. -/
def defaultDetection : Detection := ⟨"", 0, ⟨0, 0, 0, 0⟩, none⟩

/-- Python dict write `self.tracks[k] = v`: overwrite in place when the
key exists, append otherwise. -/
def trackInsert (l : List (ℕ × Track)) (k : ℕ) (v : Track) :
    List (ℕ × Track) :=
  if l.any (fun p => p.1 = k) then l.map (fun p => if p.1 = k then (k, v) else p)
  else l ++ [(k, v)]

/-- Python dict read `self.tracks[k]`. -/
def trackGet (l : List (ℕ × Track)) (k : ℕ) : Option Track :=
  (l.find? (fun p => p.1 = k)).map Prod.snd

/-- Inner loop of `SimpleTracker._match`: scan the tracks dict in
insertion order keeping `(best_iou, best_track)`; a candidate must be
unmatched, strictly beat the running best (initialised to `0`), and
reach the threshold. -/
def bestStep (thr : ℚ) (detBox : Box) (unmatchedTracks : List ℕ)
    (acc : ℚ × Option ℕ) (p : ℕ × Track) : ℚ × Option ℕ :=
  if p.1 ∈ unmatchedTracks then
    if acc.1 < calculate_iou detBox p.2.bbox ∧
        thr ≤ calculate_iou detBox p.2.bbox then
      (calculate_iou detBox p.2.bbox, some p.1)
    else acc
  else acc

def bestTrack (thr : ℚ) (detBox : Box) (tracks : List (ℕ × Track))
    (unmatchedTracks : List ℕ) : ℚ × Option ℕ :=
  tracks.foldl (bestStep thr detBox unmatchedTracks) (0, none)

/-- One iteration of the `for det_idx, det in enumerate(detections)`
loop of `SimpleTracker._match`, acting on
`(matched, unmatched_dets, unmatched_tracks)`. -/
def matchStep (thr : ℚ) (tracks : List (ℕ × Track)) (dets : List Detection)
    (acc : List (ℕ × ℕ) × List ℕ × List ℕ) (i : ℕ) :
    List (ℕ × ℕ) × List ℕ × List ℕ :=
  match (bestTrack thr (dets.getD i defaultDetection).bbox tracks acc.2.2).2 with
  | some tid => (acc.1 ++ [(i, tid)], acc.2.1.erase i, acc.2.2.erase tid)
  | none => acc

/-- Translation of `SimpleTracker._match` (the enumerate loop is
modelled as a fold over the detection indices). -/
def SimpleTracker.matchDets (t : SimpleTracker) (dets : List Detection) :
    List (ℕ × ℕ) × List ℕ × List ℕ :=
  if dets.isEmpty ∨ t.tracks.isEmpty then
    ([], List.range dets.length, t.tracks.map Prod.fst)
  else
    (List.range dets.length).foldl (matchStep t.iou_threshold t.tracks dets)
      ([], List.range dets.length, t.tracks.map Prod.fst)

/-- State of the `_match` loop after the first `i` detections. -/
def SimpleTracker.matchState (t : SimpleTracker) (dets : List Detection)
    (i : ℕ) : List (ℕ × ℕ) × List ℕ × List ℕ :=
  (List.range i).foldl (matchStep t.iou_threshold t.tracks dets)
    ([], List.range dets.length, t.tracks.map Prod.fst)

/-- `det.track_id = tid` for the detection at index `i`. -/
def setTrackId : List Detection → ℕ → ℕ → List Detection
  | [], _, _ => []
  | d :: rest, 0, tid => { d with track_id := some tid } :: rest
  | d :: rest, i + 1, tid => d :: setTrackId rest i tid

/-- `for det_idx, track_id in matched:` loop of `SimpleTracker.update`:
refresh the bound track's bbox, increment `hits`, reset `age` (dict
reads of live keys; the `none` branch models the impossible
`KeyError` as a no-op). -/
def refreshFold (dets : List Detection) (matched : List (ℕ × ℕ))
    (tracks : List (ℕ × Track)) : List (ℕ × Track) :=
  matched.foldl
    (fun tracks pr =>
      match trackGet tracks pr.2 with
      | some tr => trackInsert tracks pr.2
          { tr with bbox := (dets.getD pr.1 defaultDetection).bbox,
                    hits := tr.hits + 1, age := 0 }
      | none => tracks)
    tracks

/-- `for det_idx in unmatched_dets:` loop of `SimpleTracker.update`:
create a new track under `next_id` and increment `next_id`. -/
def spawnFold (dets : List Detection) (udets : List ℕ)
    (acc : List (ℕ × Track) × ℕ) : List (ℕ × Track) × ℕ :=
  udets.foldl
    (fun acc i =>
      (trackInsert acc.1 acc.2
        ⟨(dets.getD i defaultDetection).bbox, 1, 0⟩, acc.2 + 1))
    acc

/-- `for track_id in unmatched_tracks:` loop of `SimpleTracker.update`:
increment the track's `age`. -/
def ageFold (utracks : List ℕ) (tracks : List (ℕ × Track)) :
    List (ℕ × Track) :=
  utracks.foldl
    (fun tracks tid =>
      match trackGet tracks tid with
      | some tr => trackInsert tracks tid { tr with age := tr.age + 1 }
      | none => tracks)
    tracks

/-- Translation of `SimpleTracker.update`: refresh matched tracks,
spawn tracks for unmatched detections (incrementing `next_id`), age
unmatched tracks, drop tracks whose age reached `max_age`.  The
annotation of the mutable input detections is modelled by parallel
folds over the same loops. -/
def SimpleTracker.update (t : SimpleTracker) (dets : List Detection) :
    SimpleTracker × List Detection :=
  let m := t.matchDets dets
  let tracks1 := refreshFold dets m.1 t.tracks
  let dets1 := m.1.foldl (fun ds pr => setTrackId ds pr.1 pr.2) dets
  let s2 := spawnFold dets m.2.1 (tracks1, t.next_id)
  let a2 := m.2.1.foldl
    (fun (acc : List Detection × ℕ) i => (setTrackId acc.1 i acc.2, acc.2 + 1))
    (dets1, t.next_id)
  let tracks3 := ageFold m.2.2 s2.1
  ({ t with
      tracks := tracks3.filter (fun p => p.2.age < t.max_age),
      next_id := s2.2 }, a2.1)

/-- Invariant of the `bestTrack` fold over a processed prefix of the
tracks list: either nothing qualified yet, or the accumulator holds the
first (hence, for ascending keys, smallest-id) track attaining the
maximum IoU among the available candidates, and that IoU reaches the
threshold. -/
def BestInv (thr : ℚ) (detBox : Box) (avail : List ℕ)
    (pre : List (ℕ × Track)) (acc : ℚ × Option ℕ) : Prop :=
  (acc = (0, none) ∧
    ∀ p ∈ pre, p.1 ∈ avail → calculate_iou detBox p.2.bbox < thr) ∨
  (∃ tid tr, acc.2 = some tid ∧ (tid, tr) ∈ pre ∧ tid ∈ avail ∧
    acc.1 = calculate_iou detBox tr.bbox ∧ thr ≤ acc.1 ∧
    (∀ p ∈ pre, p.1 ∈ avail → calculate_iou detBox p.2.bbox ≤ acc.1) ∧
    (∀ p ∈ pre, p.1 ∈ avail → calculate_iou detBox p.2.bbox = acc.1 → tid ≤ p.1))

theorem bestStep_inv (thr : ℚ) (hthr : 0 < thr) (detBox : Box)
    (avail : List ℕ) (pre : List (ℕ × Track)) (q : ℕ × Track)
    (acc : ℚ × Option ℕ)
    (hlt : ∀ a ∈ pre.map Prod.fst, a < q.1)
    (hinv : BestInv thr detBox avail pre acc) :
    BestInv thr detBox avail (pre ++ [q]) (bestStep thr detBox avail acc q) := by
  by_cases hmem : q.1 ∈ avail
  · by_cases hcond : acc.1 < calculate_iou detBox q.2.bbox ∧
        thr ≤ calculate_iou detBox q.2.bbox
    · have hstep : bestStep thr detBox avail acc q =
          (calculate_iou detBox q.2.bbox, some q.1) := by
        unfold bestStep
        rw [if_pos hmem, if_pos hcond]
      rw [hstep]
      right
      refine ⟨q.1, q.2, rfl, List.mem_append_right _ (by simp), hmem, rfl,
        hcond.2, ?_, ?_⟩
      · intro p hp hpm
        rcases List.mem_append.mp hp with hp | hp
        · rcases hinv with ⟨hacc, hall⟩ | ⟨tid, tr, _, _, _, _, hthr2, hmax, _⟩
          · have := hall p hp hpm
            have h0 : acc.1 = 0 := by rw [hacc]
            have := hcond.2
            linarith [hall p hp hpm]
          · have := hmax p hp hpm
            linarith [hcond.1]
        · simp at hp
          rw [hp]
      · intro p hp hpm hpe
        rcases List.mem_append.mp hp with hp | hp
        · rcases hinv with ⟨hacc, hall⟩ | ⟨tid, tr, _, _, _, _, hthr2, hmax, _⟩
          · have h1 := hall p hp hpm
            have := hcond.2
            linarith
          · have h1 := hmax p hp hpm
            have := hcond.1
            linarith
        · simp at hp
          rw [hp]
    · have hstep : bestStep thr detBox avail acc q = acc := by
        unfold bestStep
        rw [if_pos hmem, if_neg hcond]
      rw [hstep]
      rcases hinv with ⟨hacc, hall⟩ | ⟨tid, tr, ha2, htm, htav, ha1, hthr2, hmax, htie⟩
      · left
        refine ⟨hacc, ?_⟩
        intro p hp hpm
        rcases List.mem_append.mp hp with hp | hp
        · exact hall p hp hpm
        · simp at hp
          rw [hp]
          by_contra hge
          push_neg at hge
          apply hcond
          have h0 : acc.1 = 0 := by rw [hacc]
          exact ⟨by rw [h0]; linarith, hge⟩
      · right
        have hq : calculate_iou detBox q.2.bbox ≤ acc.1 := by
          by_contra hgt
          push_neg at hgt
          exact hcond ⟨hgt, le_trans hthr2 hgt.le⟩
        refine ⟨tid, tr, ha2, List.mem_append_left _ htm, htav, ha1, hthr2, ?_, ?_⟩
        · intro p hp hpm
          rcases List.mem_append.mp hp with hp | hp
          · exact hmax p hp hpm
          · simp at hp
            rw [hp]
            exact hq
        · intro p hp hpm hpe
          rcases List.mem_append.mp hp with hp | hp
          · exact htie p hp hpm hpe
          · simp at hp
            subst hp
            have : tid ∈ pre.map Prod.fst :=
              List.mem_map.mpr ⟨(tid, tr), htm, rfl⟩
            exact le_of_lt (hlt tid this)
  · have hstep : bestStep thr detBox avail acc q = acc := by
      unfold bestStep
      rw [if_neg hmem]
    rw [hstep]
    rcases hinv with ⟨hacc, hall⟩ | ⟨tid, tr, ha2, htm, htav, ha1, hthr2, hmax, htie⟩
    · left
      refine ⟨hacc, ?_⟩
      intro p hp hpm
      rcases List.mem_append.mp hp with hp | hp
      · exact hall p hp hpm
      · simp at hp
        rw [hp] at hpm
        exact absurd hpm hmem
    · right
      refine ⟨tid, tr, ha2, List.mem_append_left _ htm, htav, ha1, hthr2, ?_, ?_⟩
      · intro p hp hpm
        rcases List.mem_append.mp hp with hp | hp
        · exact hmax p hp hpm
        · simp at hp
          rw [hp] at hpm
          exact absurd hpm hmem
      · intro p hp hpm hpe
        rcases List.mem_append.mp hp with hp | hp
        · exact htie p hp hpm hpe
        · simp at hp
          rw [hp] at hpm
          exact absurd hpm hmem

theorem bestTrack_inv (thr : ℚ) (hthr : 0 < thr) (detBox : Box)
    (avail : List ℕ) (tracks : List (ℕ × Track))
    (hsort : (tracks.map Prod.fst).Pairwise (· < ·)) :
    BestInv thr detBox avail tracks (bestTrack thr detBox tracks avail) := by
  suffices h : ∀ (rest pre : List (ℕ × Track)) (acc : ℚ × Option ℕ),
      ((pre ++ rest).map Prod.fst).Pairwise (· < ·) →
      BestInv thr detBox avail pre acc →
      BestInv thr detBox avail (pre ++ rest)
        (rest.foldl (bestStep thr detBox avail) acc) by
    have h0 := h tracks [] (0, none) (by simpa using hsort)
      (Or.inl ⟨rfl, by simp⟩)
    simpa using h0
  intro rest
  induction rest with
  | nil =>
    intro pre acc hp hinv
    simpa using hinv
  | cons q rest ih =>
    intro pre acc hp hinv
    rw [List.foldl_cons]
    have hassoc : pre ++ q :: rest = (pre ++ [q]) ++ rest := by simp
    have hp' : (((pre ++ [q]) ++ rest).map Prod.fst).Pairwise (· < ·) := by
      rwa [← hassoc]
    have hp2 : (pre.map Prod.fst ++ (q :: rest).map Prod.fst).Pairwise (· < ·) := by
      rwa [← List.map_append]
    have hlt : ∀ a ∈ pre.map Prod.fst, a < q.1 :=
      fun a ha => (List.pairwise_append.mp hp2).2.2 a ha q.1 (by simp)
    have hstep := bestStep_inv thr hthr detBox avail pre q acc hlt hinv
    have hres := ih (pre ++ [q]) (bestStep thr detBox avail acc q) hp' hstep
    rwa [← hassoc] at hres

theorem bestTrack_some (thr : ℚ) (hthr : 0 < thr) (detBox : Box)
    (tracks : List (ℕ × Track)) (avail : List ℕ) (tid : ℕ)
    (hsort : (tracks.map Prod.fst).Pairwise (· < ·))
    (h : (bestTrack thr detBox tracks avail).2 = some tid) :
    ∃ tr, (tid, tr) ∈ tracks ∧ tid ∈ avail ∧
      thr ≤ calculate_iou detBox tr.bbox ∧
      (∀ p ∈ tracks, p.1 ∈ avail →
        calculate_iou detBox p.2.bbox ≤ calculate_iou detBox tr.bbox) ∧
      (∀ p ∈ tracks, p.1 ∈ avail →
        calculate_iou detBox p.2.bbox = calculate_iou detBox tr.bbox →
          tid ≤ p.1) := by
  rcases bestTrack_inv thr hthr detBox avail tracks hsort with ⟨hacc, _⟩ |
    ⟨tid', tr, ha2, htm, htav, ha1, hth, hmax, htie⟩
  · rw [hacc] at h
    simp at h
  · rw [ha2] at h
    injection h with h
    subst h
    refine ⟨tr, htm, htav, ha1 ▸ hth, fun p hp hm => ha1 ▸ hmax p hp hm,
      fun p hp hm he => htie p hp hm ?_⟩
    rw [ha1]
    exact he

theorem bestTrack_none (thr : ℚ) (hthr : 0 < thr) (detBox : Box)
    (tracks : List (ℕ × Track)) (avail : List ℕ)
    (hsort : (tracks.map Prod.fst).Pairwise (· < ·))
    (h : (bestTrack thr detBox tracks avail).2 = none) :
    ∀ p ∈ tracks, p.1 ∈ avail → calculate_iou detBox p.2.bbox < thr := by
  rcases bestTrack_inv thr hthr detBox avail tracks hsort with ⟨_, hall⟩ |
    ⟨tid', tr, ha2, _⟩
  · exact hall
  · rw [ha2] at h
    simp at h

theorem matchState_zero (t : SimpleTracker) (dets : List Detection) :
    t.matchState dets 0 = ([], List.range dets.length, t.tracks.map Prod.fst) :=
  rfl

theorem matchState_succ (t : SimpleTracker) (dets : List Detection) (i : ℕ) :
    t.matchState dets (i + 1) =
      matchStep t.iou_threshold t.tracks dets (t.matchState dets i) i := by
  unfold SimpleTracker.matchState
  rw [List.range_succ, List.foldl_append, List.foldl_cons, List.foldl_nil]

theorem foldl_matchStep_empty (thr : ℚ) (dets : List Detection) :
    ∀ (l : List ℕ) (acc : List (ℕ × ℕ) × List ℕ × List ℕ),
      l.foldl (matchStep thr [] dets) acc = acc := by
  intro l
  induction l with
  | nil => intro acc; rfl
  | cons i l ih =>
    intro acc
    rw [List.foldl_cons]
    have hstep : matchStep thr [] dets acc i = acc := rfl
    rw [hstep, ih]

theorem matchDets_eq_matchState (t : SimpleTracker) (dets : List Detection) :
    t.matchDets dets = t.matchState dets dets.length := by
  unfold SimpleTracker.matchDets SimpleTracker.matchState
  split
  · rename_i hcond
    have hcond' : dets = [] ∨ t.tracks = [] := by
      simpa [List.isEmpty_iff] using hcond
    rcases hcond' with hd | ht
    · subst hd
      rfl
    · rw [ht]
      exact (foldl_matchStep_empty _ dets _ _).symm
  · rfl

/-- Loop bookkeeping of `_match`: the unmatched lists are exactly the
keys / indices not yet bound, matched indices are strictly increasing
and below the step counter, and matched track ids are distinct live
keys. -/
def MatchInv (dets : List Detection) (keys : List ℕ) (i : ℕ)
    (st : List (ℕ × ℕ) × List ℕ × List ℕ) : Prop :=
  st.2.2 = keys.filter (fun k => ¬ k ∈ st.1.map Prod.snd) ∧
  st.2.1 = (List.range dets.length).filter (fun j => ¬ j ∈ st.1.map Prod.fst) ∧
  (∀ pr ∈ st.1, pr.1 < i) ∧
  (st.1.map Prod.fst).Pairwise (· < ·) ∧
  (st.1.map Prod.snd).Nodup ∧
  (∀ tid ∈ st.1.map Prod.snd, tid ∈ keys)

theorem pairwise_lt_nodup {l : List ℕ} (h : l.Pairwise (· < ·)) : l.Nodup :=
  h.imp (fun hab => Nat.ne_of_lt hab)

theorem matchStep_inv (t : SimpleTracker) (dets : List Detection)
    (hthr : 0 < t.iou_threshold)
    (hsort : (t.tracks.map Prod.fst).Pairwise (· < ·))
    (i : ℕ) (st : List (ℕ × ℕ) × List ℕ × List ℕ)
    (hinv : MatchInv dets (t.tracks.map Prod.fst) i st) :
    MatchInv dets (t.tracks.map Prod.fst) (i + 1)
      (matchStep t.iou_threshold t.tracks dets st i) := by
  obtain ⟨h22, h21, hidx, hpw, hnd, hsub⟩ := hinv
  unfold matchStep
  cases hbt : (bestTrack t.iou_threshold (dets.getD i defaultDetection).bbox
      t.tracks st.2.2).2 with
  | none =>
    exact ⟨h22, h21, fun pr hpr => Nat.lt_succ_of_lt (hidx pr hpr), hpw, hnd, hsub⟩
  | some tid =>
    obtain ⟨tr, htm, htav, _, _, _⟩ := bestTrack_some _ hthr _ _ _ _ hsort hbt
    have hkeysnd : (t.tracks.map Prod.fst).Nodup := pairwise_lt_nodup hsort
    have htk : tid ∈ t.tracks.map Prod.fst ∧ ¬ tid ∈ st.1.map Prod.snd := by
      have hmem := htav
      rw [h22] at hmem
      have hmf := List.mem_filter.mp hmem
      exact ⟨hmf.1, by simpa using hmf.2⟩
    have hidx' : ¬ i ∈ st.1.map Prod.fst := by
      intro hc
      obtain ⟨pr, hpr, hpe⟩ := List.mem_map.mp hc
      exact absurd (hpe ▸ hidx pr hpr) (lt_irrefl i)
    refine ⟨?_, ?_, ?_, ?_, ?_, ?_⟩
    · show st.2.2.erase tid = _
      rw [h22, ((hkeysnd.filter _).erase_eq_filter tid), List.filter_filter]
      refine List.filter_congr ?_
      intro a _
      rw [List.map_append]
      by_cases h1 : a = tid <;> by_cases h2 : a ∈ List.map Prod.snd st.1 <;>
        simp [h1, h2]
    · show st.2.1.erase i = _
      rw [h21, (((List.nodup_range dets.length).filter _).erase_eq_filter i),
        List.filter_filter]
      refine List.filter_congr ?_
      intro a _
      rw [List.map_append]
      by_cases h1 : a = i <;> by_cases h2 : a ∈ List.map Prod.fst st.1 <;>
        simp [h1, h2]
    · intro pr hpr
      rcases List.mem_append.mp hpr with hpr | hpr
      · exact Nat.lt_succ_of_lt (hidx pr hpr)
      · simp at hpr
        rw [hpr]
        exact Nat.lt_succ_self i
    · rw [List.map_append]
      rw [List.pairwise_append]
      refine ⟨hpw, by simp, ?_⟩
      intro a ha b hb
      simp at hb
      rw [hb]
      obtain ⟨pr, hpr, hpe⟩ := List.mem_map.mp ha
      exact hpe ▸ hidx pr hpr
    · rw [List.map_append]
      refine List.Nodup.append hnd (by simp) ?_
      rw [List.disjoint_left]
      intro a ha hb
      simp at hb
      rw [hb] at ha
      exact htk.2 ha
    · intro tid' htid'
      rw [List.map_append] at htid'
      rcases List.mem_append.mp htid' with h | h
      · exact hsub tid' h
      · simp at h
        rw [h]
        exact htk.1

theorem matchState_inv (t : SimpleTracker) (dets : List Detection)
    (hthr : 0 < t.iou_threshold)
    (hsort : (t.tracks.map Prod.fst).Pairwise (· < ·)) :
    ∀ i, MatchInv dets (t.tracks.map Prod.fst) i (t.matchState dets i) := by
  intro i
  induction i with
  | zero =>
    rw [matchState_zero]
    refine ⟨by simp, by simp, by simp, by simp, by simp, by simp⟩
  | succ i ih =>
    rw [matchState_succ]
    exact matchStep_inv t dets hthr hsort i _ ih

theorem trackGet_eq_of_mem {l : List (ℕ × Track)}
    (hnd : (l.map Prod.fst).Nodup) {k : ℕ} {v : Track}
    (h : (k, v) ∈ l) : trackGet l k = some v := by
  induction l with
  | nil => simp at h
  | cons p l ih =>
    have hnd2 : (p.1 :: l.map Prod.fst).Nodup := by
      rwa [List.map_cons] at hnd
    have hnd' := List.nodup_cons.mp hnd2
    rcases List.mem_cons.mp h with heq | hmem
    · rw [← heq]
      unfold trackGet
      rw [List.find?_cons_of_pos _ (by simp)]
      rfl
    · have hk : k ∈ l.map Prod.fst := List.mem_map.mpr ⟨(k, v), hmem, rfl⟩
      have hp1 : ¬ p.1 = k := by
        intro he
        rw [he] at hnd'
        exact hnd'.1 hk
      unfold trackGet
      rw [List.find?_cons_of_neg _ (by simpa using hp1)]
      exact ih hnd'.2 hmem

theorem trackInsert_present {l : List (ℕ × Track)} {k : ℕ} (v : Track)
    (h : k ∈ l.map Prod.fst) :
    trackInsert l k v = l.map (fun p => if p.1 = k then (k, v) else p) := by
  unfold trackInsert
  rw [if_pos]
  rw [List.any_eq_true]
  obtain ⟨p, hp, hpe⟩ := List.mem_map.mp h
  exact ⟨p, hp, by simp [hpe]⟩

theorem trackInsert_absent {l : List (ℕ × Track)} {k : ℕ} (v : Track)
    (h : ¬ k ∈ l.map Prod.fst) :
    trackInsert l k v = l ++ [(k, v)] := by
  unfold trackInsert
  rw [if_neg]
  rw [List.any_eq_true]
  rintro ⟨p, hp, hpe⟩
  exact h (List.mem_map.mpr ⟨p, hp, by simpa using hpe⟩)

theorem map_fst_of_fst_preserving {l : List (ℕ × Track)}
    {f : ℕ × Track → ℕ × Track} (hf : ∀ p ∈ l, (f p).1 = p.1) :
    (l.map f).map Prod.fst = l.map Prod.fst := by
  rw [List.map_map]
  exact List.map_congr_left (fun p hp => hf p hp)

/-- Refreshed record written by the matched-track loop
(`bbox := det.bbox`, `hits += 1`, `age := 0`). -/
def refreshedTrack (dets : List Detection) (i : ℕ) (tr : Track) : Track :=
  ⟨(dets.getD i defaultDetection).bbox, tr.hits + 1, 0⟩

/-- Aged record written by the unmatched-track loop (`age += 1`). -/
def agedTrack (tr : Track) : Track :=
  { tr with age := tr.age + 1 }

/-- Pointwise effect of the matched-track refresh loop. -/
def refreshMapFn (dets : List Detection) (matched : List (ℕ × ℕ))
    (p : ℕ × Track) : ℕ × Track :=
  match matched.find? (fun pr => pr.2 = p.1) with
  | some pr => (p.1, refreshedTrack dets pr.1 p.2)
  | none => p

theorem refreshMapFn_of_none {dets : List Detection}
    {matched : List (ℕ × ℕ)} {p : ℕ × Track}
    (h : matched.find? (fun pr => pr.2 = p.1) = none) :
    refreshMapFn dets matched p = p := by
  unfold refreshMapFn
  rw [h]

theorem refreshMapFn_of_some {dets : List Detection}
    {matched : List (ℕ × ℕ)} {p : ℕ × Track} {pr : ℕ × ℕ}
    (h : matched.find? (fun pr => pr.2 = p.1) = some pr) :
    refreshMapFn dets matched p = (p.1, refreshedTrack dets pr.1 p.2) := by
  unfold refreshMapFn
  rw [h]

theorem refreshFold_cons (dets : List Detection) (pr : ℕ × ℕ)
    (rest : List (ℕ × ℕ)) (tracks : List (ℕ × Track)) :
    refreshFold dets (pr :: rest) tracks =
      refreshFold dets rest
        (match trackGet tracks pr.2 with
          | some tr => trackInsert tracks pr.2
              { tr with bbox := (dets.getD pr.1 defaultDetection).bbox,
                        hits := tr.hits + 1, age := 0 }
          | none => tracks) := rfl

theorem refreshFold_eq (dets : List Detection) :
    ∀ (matched : List (ℕ × ℕ)) (tracks : List (ℕ × Track)),
      (tracks.map Prod.fst).Nodup →
      (matched.map Prod.snd).Nodup →
      (∀ tid ∈ matched.map Prod.snd, tid ∈ tracks.map Prod.fst) →
      refreshFold dets matched tracks =
        tracks.map (refreshMapFn dets matched) := by
  intro matched
  induction matched with
  | nil =>
    intro tracks _ _ _
    show tracks = _
    symm
    have h2 : ∀ p ∈ tracks, refreshMapFn dets [] p = p := fun p _ => rfl
    calc tracks.map (refreshMapFn dets [])
        = tracks.map (fun p => p) := List.map_congr_left h2
      _ = tracks := by simp
  | cons pr rest ih =>
    intro tracks hknd hmnd hsub
    have hmnd2 : (pr.2 :: rest.map Prod.snd).Nodup := by
      rwa [List.map_cons] at hmnd
    have hndrest := List.nodup_cons.mp hmnd2
    have hmem : pr.2 ∈ tracks.map Prod.fst := hsub pr.2 (by simp)
    obtain ⟨q, hq, hqe⟩ := List.mem_map.mp hmem
    have hget : trackGet tracks pr.2 = some q.2 := by
      apply trackGet_eq_of_mem hknd
      rw [← hqe, Prod.mk.eta]
      exact hq
    have hstep : (match trackGet tracks pr.2 with
        | some tr => trackInsert tracks pr.2
            { tr with bbox := (dets.getD pr.1 defaultDetection).bbox,
                      hits := tr.hits + 1, age := 0 }
        | none => tracks) =
        tracks.map (fun p =>
          if p.1 = pr.2 then (p.1, refreshedTrack dets pr.1 p.2) else p) := by
      rw [hget]
      show trackInsert tracks pr.2
        ⟨(dets.getD pr.1 defaultDetection).bbox, q.2.hits + 1, 0⟩ = _
      rw [trackInsert_present _ hmem]
      refine List.map_congr_left ?_
      intro p hp
      by_cases hpk : p.1 = pr.2
      · rw [if_pos hpk, if_pos hpk]
        have hgp : trackGet tracks pr.2 = some p.2 := by
          apply trackGet_eq_of_mem hknd
          rw [← hpk, Prod.mk.eta]
          exact hp
        have hq2 : q.2 = p.2 := by
          have h3 := hget.symm.trans hgp
          injection h3
        rw [hq2, hpk]
        rfl
      · rw [if_neg hpk, if_neg hpk]
    rw [refreshFold_cons, hstep]
    have hfp : ∀ p ∈ tracks, ((fun p =>
        if p.1 = pr.2 then (p.1, refreshedTrack dets pr.1 p.2) else p) p).1 =
        p.1 := by
      intro p _
      by_cases hpk : p.1 = pr.2 <;> simp [hpk]
    have hkeys' := map_fst_of_fst_preserving hfp
    rw [ih _ (by rw [hkeys']; exact hknd) hndrest.2
      (by rw [hkeys']; exact fun tid htid => hsub tid (by simp [htid]))]
    rw [List.map_map]
    refine List.map_congr_left ?_
    intro p hp
    simp only [Function.comp]
    by_cases hpk : p.1 = pr.2
    · rw [if_pos hpk]
      have hnone : rest.find? (fun x => x.2 = p.1) = none := by
        rw [List.find?_eq_none]
        intro x hx
        simp only [decide_eq_true_eq]
        intro hxe
        exact hndrest.1 (List.mem_map.mpr ⟨x, hx, hxe.trans hpk⟩)
      have hfind : (pr :: rest).find? (fun x => x.2 = p.1) = some pr :=
        List.find?_cons_of_pos _ (by simp [hpk])
      have h1 : refreshMapFn dets rest (p.1, refreshedTrack dets pr.1 p.2) =
          (p.1, refreshedTrack dets pr.1 p.2) :=
        refreshMapFn_of_none hnone
      have h2 : refreshMapFn dets (pr :: rest) p =
          (p.1, refreshedTrack dets pr.1 p.2) :=
        refreshMapFn_of_some hfind
      rw [h1, h2]
    · rw [if_neg hpk]
      have hne : ¬ (pr.2 = p.1) := fun h => hpk h.symm
      have hfind : (pr :: rest).find? (fun x => x.2 = p.1) =
          rest.find? (fun x => x.2 = p.1) :=
        List.find?_cons_of_neg _ (by simpa using hne)
      unfold refreshMapFn
      rw [hfind]

/-- Pointwise effect of the unmatched-track aging loop. -/
def ageMapFn (u : List ℕ) (p : ℕ × Track) : ℕ × Track :=
  if p.1 ∈ u then (p.1, agedTrack p.2) else p

theorem ageFold_cons (tid : ℕ) (rest : List ℕ) (tracks : List (ℕ × Track)) :
    ageFold (tid :: rest) tracks =
      ageFold rest
        (match trackGet tracks tid with
          | some tr => trackInsert tracks tid { tr with age := tr.age + 1 }
          | none => tracks) := rfl

theorem ageFold_eq :
    ∀ (utracks : List ℕ) (tracks : List (ℕ × Track)),
      (tracks.map Prod.fst).Nodup → utracks.Nodup →
      (∀ tid ∈ utracks, tid ∈ tracks.map Prod.fst) →
      ageFold utracks tracks = tracks.map (ageMapFn utracks) := by
  intro utracks
  induction utracks with
  | nil =>
    intro tracks _ _ _
    show tracks = _
    symm
    have h2 : ∀ p ∈ tracks, ageMapFn [] p = p := fun p _ => by simp [ageMapFn]
    calc tracks.map (ageMapFn [])
        = tracks.map (fun p => p) := List.map_congr_left h2
      _ = tracks := by simp
  | cons tid rest ih =>
    intro tracks hknd hund hsub
    have hnd' := List.nodup_cons.mp hund
    have hmem : tid ∈ tracks.map Prod.fst := hsub tid (by simp)
    obtain ⟨q, hq, hqe⟩ := List.mem_map.mp hmem
    have hget : trackGet tracks tid = some q.2 := by
      apply trackGet_eq_of_mem hknd
      rw [← hqe, Prod.mk.eta]
      exact hq
    have hstep : (match trackGet tracks tid with
        | some tr => trackInsert tracks tid { tr with age := tr.age + 1 }
        | none => tracks) =
        tracks.map (fun p => if p.1 = tid then (p.1, agedTrack p.2) else p) := by
      rw [hget]
      show trackInsert tracks tid { q.2 with age := q.2.age + 1 } = _
      rw [trackInsert_present _ hmem]
      refine List.map_congr_left ?_
      intro p hp
      by_cases hpk : p.1 = tid
      · rw [if_pos hpk, if_pos hpk]
        have hgp : trackGet tracks tid = some p.2 := by
          apply trackGet_eq_of_mem hknd
          rw [← hpk, Prod.mk.eta]
          exact hp
        have hq2 : q.2 = p.2 := by
          have h3 := hget.symm.trans hgp
          injection h3
        rw [hq2, hpk]
        rfl
      · rw [if_neg hpk, if_neg hpk]
    rw [ageFold_cons, hstep]
    have hfp : ∀ p ∈ tracks,
        ((fun p => if p.1 = tid then (p.1, agedTrack p.2) else p) p).1 = p.1 := by
      intro p _
      by_cases hpk : p.1 = tid <;> simp [hpk]
    have hkeys' := map_fst_of_fst_preserving hfp
    rw [ih _ (by rw [hkeys']; exact hknd) hnd'.2
      (by rw [hkeys']; exact fun x hx => hsub x (by simp [hx]))]
    rw [List.map_map]
    refine List.map_congr_left ?_
    intro p hp
    simp only [Function.comp]
    by_cases hpk : p.1 = tid
    · rw [if_pos hpk]
      have hnr : ¬ p.1 ∈ rest := by
        rw [hpk]
        exact hnd'.1
      have h1 : ageMapFn rest (p.1, agedTrack p.2) = (p.1, agedTrack p.2) := by
        simp [ageMapFn, hnr]
      have h2 : ageMapFn (tid :: rest) p = (p.1, agedTrack p.2) := by
        simp [ageMapFn, hpk]
      rw [h1, h2]
    · rw [if_neg hpk]
      by_cases hr : p.1 ∈ rest <;> simp [ageMapFn, hpk, hr]

/-- Tracks created by the unmatched-detection loop: consecutive ids
from `base`, each with the detection's bbox, one hit and age zero. -/
def spawnTracks (dets : List Detection) : List ℕ → ℕ → List (ℕ × Track)
  | [], _ => []
  | i :: rest, base =>
    (base, ⟨(dets.getD i defaultDetection).bbox, 1, 0⟩) ::
      spawnTracks dets rest (base + 1)

theorem spawnFold_eq (dets : List Detection) :
    ∀ (udets : List ℕ) (tracks : List (ℕ × Track)) (base : ℕ),
      (∀ k ∈ tracks.map Prod.fst, k < base) →
      spawnFold dets udets (tracks, base) =
        (tracks ++ spawnTracks dets udets base, base + udets.length) := by
  intro udets
  induction udets with
  | nil =>
    intro tracks base _
    simp [spawnFold, spawnTracks]
  | cons i rest ih =>
    intro tracks base hb
    have habs : ¬ base ∈ tracks.map Prod.fst :=
      fun hc => absurd (hb base hc) (lt_irrefl base)
    have hcons : spawnFold dets (i :: rest) (tracks, base) =
        spawnFold dets rest
          (trackInsert tracks base ⟨(dets.getD i defaultDetection).bbox, 1, 0⟩,
            base + 1) := rfl
    rw [hcons, trackInsert_absent _ habs]
    have harg : ∀ k ∈ (tracks ++
        [(base, (⟨(dets.getD i defaultDetection).bbox, 1, 0⟩ : Track))]).map
          Prod.fst, k < base + 1 := by
      intro k hk
      rw [List.map_append] at hk
      rcases List.mem_append.mp hk with hk | hk
      · exact Nat.lt_succ_of_lt (hb k hk)
      · simp at hk
        rw [hk]
        exact Nat.lt_succ_self base
    rw [ih _ (base + 1) harg]
    rw [List.append_assoc, List.singleton_append]
    have hlen : base + 1 + rest.length = base + (rest.length + 1) := by omega
    rw [hlen]
    rfl

theorem spawnTracks_bound (dets : List Detection) :
    ∀ (udets : List ℕ) (base : ℕ) (q : ℕ × Track),
      q ∈ spawnTracks dets udets base →
      base ≤ q.1 ∧ q.1 < base + udets.length ∧ q.2.age = 0 := by
  intro udets
  induction udets with
  | nil =>
    intro base q hq
    simp [spawnTracks] at hq
  | cons i rest ih =>
    intro base q hq
    rcases List.mem_cons.mp hq with hq | hq
    · rw [hq]
      refine ⟨le_refl _, ?_, rfl⟩
      simp only [List.length_cons]
      omega
    · obtain ⟨h1, h2, h3⟩ := ih (base + 1) q hq
      refine ⟨by omega, ?_, h3⟩
      simp only [List.length_cons]
      omega

theorem spawnTracks_keys_sorted (dets : List Detection) :
    ∀ (udets : List ℕ) (base : ℕ),
      ((spawnTracks dets udets base).map Prod.fst).Pairwise (· < ·) := by
  intro udets
  induction udets with
  | nil =>
    intro base
    simp [spawnTracks]
  | cons i rest ih =>
    intro base
    simp only [spawnTracks, List.map_cons]
    rw [List.pairwise_cons]
    refine ⟨?_, ih (base + 1)⟩
    intro k hk
    obtain ⟨q, hq, hqe⟩ := List.mem_map.mp hk
    have hbd := (spawnTracks_bound dets rest (base + 1) q hq).1
    omega

/-- Per-existing-track effect of one `update` call: a track bound to a
detection is refreshed (bbox replaced, `hits + 1`, `age := 0`), every
other existing track ages by one. -/
def refreshOrAge (dets : List Detection) (matched : List (ℕ × ℕ))
    (p : ℕ × Track) : ℕ × Track :=
  match matched.find? (fun pr => pr.2 = p.1) with
  | some pr => (p.1, refreshedTrack dets pr.1 p.2)
  | none => (p.1, agedTrack p.2)

theorem refreshOrAge_of_some {dets : List Detection}
    {matched : List (ℕ × ℕ)} {p : ℕ × Track} {pr : ℕ × ℕ}
    (h : matched.find? (fun pr => pr.2 = p.1) = some pr) :
    refreshOrAge dets matched p = (p.1, refreshedTrack dets pr.1 p.2) := by
  unfold refreshOrAge
  rw [h]

theorem refreshOrAge_of_none {dets : List Detection}
    {matched : List (ℕ × ℕ)} {p : ℕ × Track}
    (h : matched.find? (fun pr => pr.2 = p.1) = none) :
    refreshOrAge dets matched p = (p.1, agedTrack p.2) := by
  unfold refreshOrAge
  rw [h]

theorem refreshMapFn_fst (dets : List Detection) (matched : List (ℕ × ℕ))
    (p : ℕ × Track) : (refreshMapFn dets matched p).1 = p.1 := by
  unfold refreshMapFn
  cases matched.find? (fun pr => pr.2 = p.1) <;> rfl

theorem update_post (t : SimpleTracker) (dets : List Detection)
    (hthr : 0 < t.iou_threshold)
    (hsort : (t.tracks.map Prod.fst).Pairwise (· < ·))
    (hbound : ∀ k ∈ t.tracks.map Prod.fst, k < t.next_id) :
    (t.update dets).1.tracks =
      ((t.tracks.map (refreshOrAge dets (t.matchDets dets).1)) ++
        spawnTracks dets (t.matchDets dets).2.1 t.next_id).filter
        (fun p => p.2.age < t.max_age) ∧
    (t.update dets).1.next_id = t.next_id + (t.matchDets dets).2.1.length := by
  have hmdeq := matchDets_eq_matchState t dets
  have hinv := matchState_inv t dets hthr hsort dets.length
  rw [← hmdeq] at hinv
  obtain ⟨h22, h21, hidx, hpw, hnd, hsub⟩ := hinv
  have hknd : (t.tracks.map Prod.fst).Nodup := pairwise_lt_nodup hsort
  have hP1 := refreshFold_eq dets (t.matchDets dets).1 t.tracks hknd hnd hsub
  have hkeys1 : ((t.tracks.map (refreshMapFn dets (t.matchDets dets).1)).map
      Prod.fst) = t.tracks.map Prod.fst :=
    map_fst_of_fst_preserving (fun p _ => refreshMapFn_fst dets _ p)
  have hP2 := spawnFold_eq dets (t.matchDets dets).2.1
    (t.tracks.map (refreshMapFn dets (t.matchDets dets).1)) t.next_id
    (by rw [hkeys1]; exact hbound)
  have hkeysapp : (((t.tracks.map (refreshMapFn dets (t.matchDets dets).1)) ++
      spawnTracks dets (t.matchDets dets).2.1 t.next_id).map Prod.fst).Nodup := by
    rw [List.map_append, hkeys1]
    refine List.Nodup.append hknd
      (pairwise_lt_nodup (spawnTracks_keys_sorted dets _ _)) ?_
    rw [List.disjoint_left]
    intro k hk1 hk2
    obtain ⟨q, hq, hqe⟩ := List.mem_map.mp hk2
    have hb1 := hbound k hk1
    have hb2 := (spawnTracks_bound dets _ _ q hq).1
    omega
  have hund : (t.matchDets dets).2.2.Nodup := by
    rw [h22]
    exact hknd.filter _
  have hsubu : ∀ tid ∈ (t.matchDets dets).2.2,
      tid ∈ (((t.tracks.map (refreshMapFn dets (t.matchDets dets).1)) ++
        spawnTracks dets (t.matchDets dets).2.1 t.next_id).map Prod.fst) := by
    intro tid htid
    rw [List.map_append, hkeys1]
    refine List.mem_append_left _ ?_
    rw [h22] at htid
    exact (List.mem_filter.mp htid).1
  have hP3 := ageFold_eq (t.matchDets dets).2.2
    ((t.tracks.map (refreshMapFn dets (t.matchDets dets).1)) ++
      spawnTracks dets (t.matchDets dets).2.1 t.next_id)
    hkeysapp hund hsubu
  have hupdate : t.update dets =
      ({ t with
          tracks := (ageFold (t.matchDets dets).2.2
            (spawnFold dets (t.matchDets dets).2.1
              (refreshFold dets (t.matchDets dets).1 t.tracks,
                t.next_id)).1).filter (fun p => p.2.age < t.max_age),
          next_id := (spawnFold dets (t.matchDets dets).2.1
            (refreshFold dets (t.matchDets dets).1 t.tracks, t.next_id)).2 },
        ((t.matchDets dets).2.1.foldl
          (fun (acc : List Detection × ℕ) i => (setTrackId acc.1 i acc.2, acc.2 + 1))
          ((t.matchDets dets).1.foldl (fun ds pr => setTrackId ds pr.1 pr.2) dets,
            t.next_id)).1) := rfl
  rw [hupdate]
  simp only
  rw [hP1, hP2]
  constructor
  · simp only
    rw [hP3]
    congr 1
    rw [List.map_append]
    congr 1
    · rw [List.map_map]
      refine List.map_congr_left ?_
      intro p hp
      simp only [Function.comp]
      cases hf : (t.matchDets dets).1.find? (fun pr => pr.2 = p.1) with
      | some pr =>
        have hr1 : refreshMapFn dets (t.matchDets dets).1 p =
            (p.1, refreshedTrack dets pr.1 p.2) := refreshMapFn_of_some hf
        rw [hr1]
        have htids : p.1 ∈ (t.matchDets dets).1.map Prod.snd := by
          have hmem := List.mem_of_find?_eq_some hf
          have hpred := List.find?_some hf
          simp only [decide_eq_true_eq] at hpred
          exact List.mem_map.mpr ⟨pr, hmem, hpred⟩
        have hnu : ¬ p.1 ∈ (t.matchDets dets).2.2 := by
          rw [h22]
          intro hc
          have h5 := (List.mem_filter.mp hc).2
          simp [htids] at h5
        rw [refreshOrAge_of_some hf]
        simp [ageMapFn, hnu]
      | none =>
        have hr1 : refreshMapFn dets (t.matchDets dets).1 p = p :=
          refreshMapFn_of_none hf
        rw [hr1]
        have htids : ¬ p.1 ∈ (t.matchDets dets).1.map Prod.snd := by
          intro hc
          obtain ⟨pr, hpr, hpe⟩ := List.mem_map.mp hc
          rw [List.find?_eq_none] at hf
          exact hf pr hpr (by simpa using hpe)
        have hku : p.1 ∈ (t.matchDets dets).2.2 := by
          rw [h22]
          refine List.mem_filter.mpr ⟨List.mem_map.mpr ⟨p, hp, rfl⟩, ?_⟩
          simp [htids]
        rw [refreshOrAge_of_none hf]
        simp [ageMapFn, hku]
    · have hcong : ∀ q ∈ spawnTracks dets (t.matchDets dets).2.1 t.next_id,
          ageMapFn (t.matchDets dets).2.2 q = q := by
        intro q hq
        have hb2 := (spawnTracks_bound dets _ _ q hq).1
        have hnu : ¬ q.1 ∈ (t.matchDets dets).2.2 := by
          rw [h22]
          intro hc
          have h6 := (List.mem_filter.mp hc).1
          have h7 := hbound q.1 h6
          omega
        simp [ageMapFn, hnu]
      calc (spawnTracks dets (t.matchDets dets).2.1 t.next_id).map
            (ageMapFn (t.matchDets dets).2.2)
          = (spawnTracks dets (t.matchDets dets).2.1 t.next_id).map
              (fun q => q) := List.map_congr_left hcong
        _ = spawnTracks dets (t.matchDets dets).2.1 t.next_id := by simp
  · rfl

theorem matchState_step_spec (t : SimpleTracker) (dets : List Detection)
    (hthr : 0 < t.iou_threshold)
    (hsort : (t.tracks.map Prod.fst).Pairwise (· < ·)) (i : ℕ) :
    (∃ tid tr, (tid, tr) ∈ t.tracks ∧ tid ∈ (t.matchState dets i).2.2 ∧
      t.iou_threshold ≤
        calculate_iou (dets.getD i defaultDetection).bbox tr.bbox ∧
      (∀ p ∈ t.tracks, p.1 ∈ (t.matchState dets i).2.2 →
        calculate_iou (dets.getD i defaultDetection).bbox p.2.bbox ≤
          calculate_iou (dets.getD i defaultDetection).bbox tr.bbox) ∧
      (∀ p ∈ t.tracks, p.1 ∈ (t.matchState dets i).2.2 →
        calculate_iou (dets.getD i defaultDetection).bbox p.2.bbox =
          calculate_iou (dets.getD i defaultDetection).bbox tr.bbox →
            tid ≤ p.1) ∧
      t.matchState dets (i + 1) =
        ((t.matchState dets i).1 ++ [(i, tid)],
          (t.matchState dets i).2.1.erase i,
          (t.matchState dets i).2.2.erase tid)) ∨
    ((∀ p ∈ t.tracks, p.1 ∈ (t.matchState dets i).2.2 →
        calculate_iou (dets.getD i defaultDetection).bbox p.2.bbox <
          t.iou_threshold) ∧
      t.matchState dets (i + 1) = t.matchState dets i) := by
  rw [matchState_succ]
  unfold matchStep
  cases hbt : (bestTrack t.iou_threshold (dets.getD i defaultDetection).bbox
      t.tracks (t.matchState dets i).2.2).2 with
  | none =>
    right
    exact ⟨bestTrack_none _ hthr _ _ _ hsort hbt, rfl⟩
  | some tid =>
    left
    obtain ⟨tr, h1, h2, h3, h4, h5⟩ := bestTrack_some _ hthr _ _ _ _ hsort hbt
    exact ⟨tid, tr, h1, h2, h3, h4, h5, rfl⟩

/-- Reachable-state invariant of `SimpleTracker`: the tracks dict is in
ascending id order and every live id is below `next_id`. -/
def TrackerInv (t : SimpleTracker) : Prop :=
  (t.tracks.map Prod.fst).Pairwise (· < ·) ∧
  ∀ k ∈ t.tracks.map Prod.fst, k < t.next_id

theorem mkTracker_inv (max_age min_hits : ℕ) (thr : ℚ) :
    TrackerInv (mkTracker max_age min_hits thr) :=
  ⟨List.Pairwise.nil, by simp [mkTracker]⟩

theorem refreshOrAge_fst (dets : List Detection) (matched : List (ℕ × ℕ))
    (p : ℕ × Track) : (refreshOrAge dets matched p).1 = p.1 := by
  unfold refreshOrAge
  cases matched.find? (fun pr => pr.2 = p.1) <;> rfl

theorem spawnFold_counter (dets : List Detection) :
    ∀ (udets : List ℕ) (acc : List (ℕ × Track) × ℕ),
      (spawnFold dets udets acc).2 = acc.2 + udets.length := by
  intro udets
  induction udets with
  | nil => intro acc; rfl
  | cons i rest ih =>
    intro acc
    have hcons : spawnFold dets (i :: rest) acc =
        spawnFold dets rest
          (trackInsert acc.1 acc.2
            ⟨(dets.getD i defaultDetection).bbox, 1, 0⟩, acc.2 + 1) := rfl
    rw [hcons, ih]
    simp only [List.length_cons]
    omega

theorem update_next_id (t : SimpleTracker) (dets : List Detection) :
    (t.update dets).1.next_id = t.next_id + (t.matchDets dets).2.1.length := by
  show (spawnFold dets (t.matchDets dets).2.1
    (refreshFold dets (t.matchDets dets).1 t.tracks, t.next_id)).2 = _
  rw [spawnFold_counter]

theorem update_preserves_inv (t : SimpleTracker) (dets : List Detection)
    (hthr : 0 < t.iou_threshold) (hinv : TrackerInv t) :
    TrackerInv (t.update dets).1 := by
  obtain ⟨hsort, hbound⟩ := hinv
  obtain ⟨htracks, hnext⟩ := update_post t dets hthr hsort hbound
  constructor
  · rw [htracks]
    have hsub : ((((t.tracks.map (refreshOrAge dets (t.matchDets dets).1)) ++
        spawnTracks dets (t.matchDets dets).2.1 t.next_id).filter
        (fun p => p.2.age < t.max_age)).map Prod.fst).Sublist
        ((((t.tracks.map (refreshOrAge dets (t.matchDets dets).1)) ++
          spawnTracks dets (t.matchDets dets).2.1 t.next_id)).map Prod.fst) :=
      (List.filter_sublist _).map Prod.fst
    refine List.Pairwise.sublist hsub ?_
    rw [List.map_append,
      map_fst_of_fst_preserving (fun p _ => refreshOrAge_fst dets _ p)]
    rw [List.pairwise_append]
    refine ⟨hsort, spawnTracks_keys_sorted dets _ _, ?_⟩
    intro a ha b hb
    obtain ⟨q, hq, hqe⟩ := List.mem_map.mp hb
    have h1 := hbound a ha
    have h2 := (spawnTracks_bound dets _ _ q hq).1
    omega
  · intro k hk
    rw [htracks] at hk
    rw [hnext]
    obtain ⟨q, hq, hqe⟩ := List.mem_map.mp hk
    have hq2 := (List.mem_filter.mp hq).1
    rcases List.mem_append.mp hq2 with hq3 | hq3
    · obtain ⟨p, hp, hpe⟩ := List.mem_map.mp hq3
      have h1 : q.1 = p.1 := by rw [← hpe]; exact refreshOrAge_fst dets _ p
      have h2 := hbound p.1 (List.mem_map.mpr ⟨p, hp, rfl⟩)
      omega
    · have h2 := (spawnTracks_bound dets _ _ q hq3).2.1
      omega

/-- Ids handed out by one `update` call: one per unmatched detection,
consecutive from `next_id`. -/
def newIds (t : SimpleTracker) (dets : List Detection) : List ℕ :=
  (List.range (t.matchDets dets).2.1.length).map (fun k => t.next_id + k)

/-- Concatenation of the ids assigned over a run of `update` calls. -/
def assignedIdsRun (t : SimpleTracker) : List (List Detection) → List ℕ
  | [] => []
  | f :: fs => newIds t f ++ assignedIdsRun (t.update f).1 fs

theorem spawnTracks_map_fst (dets : List Detection) :
    ∀ (udets : List ℕ) (base : ℕ),
      (spawnTracks dets udets base).map Prod.fst =
        (List.range udets.length).map (fun k => base + k) := by
  intro udets
  induction udets with
  | nil =>
    intro base
    simp [spawnTracks]
  | cons i rest ih =>
    intro base
    show base :: (spawnTracks dets rest (base + 1)).map Prod.fst = _
    rw [ih (base + 1)]
    simp only [List.length_cons]
    rw [List.range_succ_eq_map, List.map_cons, List.map_map]
    refine List.cons_eq_cons.mpr ⟨by omega, ?_⟩
    refine List.map_congr_left ?_
    intro k _
    simp only [Function.comp]
    omega

theorem newIds_bounds (t : SimpleTracker) (dets : List Detection) :
    ∀ x ∈ newIds t dets,
      t.next_id ≤ x ∧ x < t.next_id + (t.matchDets dets).2.1.length := by
  intro x hx
  obtain ⟨k, hk, hke⟩ := List.mem_map.mp hx
  have hkr := List.mem_range.mp hk
  omega

theorem newIds_pairwise (t : SimpleTracker) (dets : List Detection) :
    (newIds t dets).Pairwise (· < ·) := by
  unfold newIds
  rw [List.pairwise_map]
  exact (List.pairwise_lt_range _).imp (fun h => by omega)

theorem assignedIdsRun_spec (frames : List (List Detection)) :
    ∀ t : SimpleTracker, (assignedIdsRun t frames).Pairwise (· < ·) ∧
      ∀ x ∈ assignedIdsRun t frames, t.next_id ≤ x := by
  induction frames with
  | nil =>
    intro t
    exact ⟨List.Pairwise.nil, by simp [assignedIdsRun]⟩
  | cons f fs ih =>
    intro t
    obtain ⟨ihp, ihb⟩ := ih (t.update f).1
    have hnext := update_next_id t f
    constructor
    · show (newIds t f ++ assignedIdsRun (t.update f).1 fs).Pairwise _
      rw [List.pairwise_append]
      refine ⟨newIds_pairwise t f, ihp, ?_⟩
      intro a ha b hb
      have h1 := (newIds_bounds t f a ha).2
      have h2 := ihb b hb
      rw [hnext] at h2
      omega
    · intro x hx
      rcases List.mem_append.mp hx with hx | hx
      · exact (newIds_bounds t f x hx).1
      · have h2 := ihb x hx
        rw [hnext] at h2
        omega

/-- C8: ids assigned by a `SimpleTracker` instance are strictly
increasing over any run of `update` calls: the concatenation of the
spawned id batches is pairwise increasing, every id assigned during the
run is at least the instance's current `next_id`, each call advances
`next_id` by exactly the number of ids it assigned, and the spawned
track records carry exactly those ids — so an id, once assigned, is
never reused by a later, distinct track (in particular not while a
track bearing it is alive). -/
theorem C8_track_ids_monotone (t : SimpleTracker)
    (frames : List (List Detection)) :
    (assignedIdsRun t frames).Pairwise (· < ·) ∧
    (∀ x ∈ assignedIdsRun t frames, t.next_id ≤ x) ∧
    (∀ dets, (t.update dets).1.next_id = t.next_id + (newIds t dets).length) ∧
    (∀ dets, (spawnTracks dets (t.matchDets dets).2.1 t.next_id).map Prod.fst =
      newIds t dets) := by
  obtain ⟨h1, h2⟩ := assignedIdsRun_spec frames t
  refine ⟨h1, h2, ?_, ?_⟩
  · intro dets
    rw [update_next_id]
    simp [newIds]
  · intro dets
    exact spawnTracks_map_fst dets _ _

/-- C3 (amended): for every call to `SimpleTracker.update` on a tracker
whose `iou_threshold` is positive and whose state satisfies the
reachable-state invariant (ascending track ids below `next_id`, see
`mkTracker_inv` / `update_preserves_inv`): (i) detections are matched
greedily in list order — at each index the detection binds to the
not-yet-matched track of maximum IoU provided that IoU reaches
`iou_threshold`, ties broken toward the smallest track id, and the
loop state advances accordingly, while an index all of whose available
tracks fall below the threshold binds nothing; (ii) `_match` is exactly
this loop run over all detections; (iii) after the call a matched track
has its bbox refreshed, `hits` incremented and `age` reset to `0`,
every unmatched track has its `age` incremented, unmatched detections
spawn tracks with consecutive fresh ids from `next_id`, and every track
whose age has reached `max_age` is removed; (iv) `next_id` advances by
the number of spawned tracks.  (The original claim, which binds a
detection whenever IoU ≥ threshold even at `iou_threshold = 0` and
IoU 0, is false: see `C3_zero_threshold_counterexample`; the code's
strict `iou > best_iou` test starting from `0` never binds a zero-IoU
pair.) -/
theorem C3_greedy_tracker (t : SimpleTracker) (dets : List Detection)
    (hthr : 0 < t.iou_threshold)
    (hsort : (t.tracks.map Prod.fst).Pairwise (· < ·))
    (hbound : ∀ k ∈ t.tracks.map Prod.fst, k < t.next_id) :
    (∀ i, i < dets.length →
      ((∃ tid tr, (tid, tr) ∈ t.tracks ∧ tid ∈ (t.matchState dets i).2.2 ∧
        t.iou_threshold ≤
          calculate_iou (dets.getD i defaultDetection).bbox tr.bbox ∧
        (∀ p ∈ t.tracks, p.1 ∈ (t.matchState dets i).2.2 →
          calculate_iou (dets.getD i defaultDetection).bbox p.2.bbox ≤
            calculate_iou (dets.getD i defaultDetection).bbox tr.bbox) ∧
        (∀ p ∈ t.tracks, p.1 ∈ (t.matchState dets i).2.2 →
          calculate_iou (dets.getD i defaultDetection).bbox p.2.bbox =
            calculate_iou (dets.getD i defaultDetection).bbox tr.bbox →
              tid ≤ p.1) ∧
        t.matchState dets (i + 1) =
          ((t.matchState dets i).1 ++ [(i, tid)],
            (t.matchState dets i).2.1.erase i,
            (t.matchState dets i).2.2.erase tid)) ∨
      ((∀ p ∈ t.tracks, p.1 ∈ (t.matchState dets i).2.2 →
          calculate_iou (dets.getD i defaultDetection).bbox p.2.bbox <
            t.iou_threshold) ∧
        t.matchState dets (i + 1) = t.matchState dets i))) ∧
    t.matchDets dets = t.matchState dets dets.length ∧
    (t.update dets).1.tracks =
      ((t.tracks.map (refreshOrAge dets (t.matchDets dets).1)) ++
        spawnTracks dets (t.matchDets dets).2.1 t.next_id).filter
        (fun p => p.2.age < t.max_age) ∧
    (t.update dets).1.next_id = t.next_id + (t.matchDets dets).2.1.length := by
  obtain ⟨htracks, hnext⟩ := update_post t dets hthr hsort hbound
  exact ⟨fun i _ => matchState_step_spec t dets hthr hsort i,
    matchDets_eq_matchState t dets, htracks, hnext⟩

/-- C3 counterexample: with `iou_threshold = 0` a detection disjoint
from the single live track has IoU `0 ≥ iou_threshold`, so per the
claim it binds to that track (the track of maximum IoU); the code binds
nothing (`matched = []`) because the scan requires `iou > best_iou`
with `best_iou` initialised to `0`. -/
theorem C3_zero_threshold_counterexample :
    (SimpleTracker.matchDets (SimpleTracker.mk 30 3 0 [(1, Track.mk ⟨0, 0, 1, 1⟩ 1 0)] 2)
        [⟨"car", 9/10, ⟨5, 5, 6, 6⟩, none⟩]).1 = [] ∧
    (0 : ℚ) ≤ calculate_iou ⟨5, 5, 6, 6⟩ ⟨0, 0, 1, 1⟩ ∧
    (1, Track.mk ⟨0, 0, 1, 1⟩ 1 0) ∈
      (SimpleTracker.mk 30 3 0 [(1, Track.mk ⟨0, 0, 1, 1⟩ 1 0)] 2).tracks := by
  have hiou : calculate_iou ⟨5, 5, 6, 6⟩ ⟨0, 0, 1, 1⟩ = 0 :=
    iou_inter_zero _ _ (by decide)
  refine ⟨?_, by rw [hiou], by simp⟩
  simp [SimpleTracker.matchDets, matchStep, bestTrack, bestStep, hiou,
    List.range_succ]

/-- Witness for `C3_greedy_tracker`: one detection over one live track,
threshold `3/10`. -/
theorem C3_witness :
    (SimpleTracker.matchDets ⟨30, 3, 3/10, [(1, ⟨⟨0, 0, 10, 10⟩, 1, 0⟩)], 2⟩
        [⟨"car", 9/10, ⟨0, 0, 10, 10⟩, none⟩]) =
      (SimpleTracker.matchState ⟨30, 3, 3/10, [(1, ⟨⟨0, 0, 10, 10⟩, 1, 0⟩)], 2⟩
        [⟨"car", 9/10, ⟨0, 0, 10, 10⟩, none⟩]
        ([⟨"car", (9 : ℚ)/10, ⟨0, 0, 10, 10⟩, none⟩] : List Detection).length) :=
  (C3_greedy_tracker ⟨30, 3, 3/10, [(1, ⟨⟨0, 0, 10, 10⟩, 1, 0⟩)], 2⟩
    [⟨"car", 9/10, ⟨0, 0, 10, 10⟩, none⟩]
    (by norm_num) (by decide) (by decide)).2.1

end SmartParking
